import Mathlib

/-!
# Verification of the gof2 matrix library core

This file shallowly embeds the gof2 Go package (matrices over GF(2) and its
polynomial extension) and proves or refutes the frozen specification claims.

Modelling conventions:
* Go `*big.Int` polynomial values are modelled as `Int` (bit i of the value is
  the coefficient of x^i; `big.Int` values may be negative, hence `Int`).
* Mutable `*big.Int` references held by the polynomial matrix kinds (`PSM`,
  `PFM`) are modelled as addresses (`Nat`) into an explicit heap
  (`Heap := List Int`, address = list index, reads default to 0).  The binary
  kinds (`SM`, `FM`) store plain bits/bit-vectors, as in the source.
* Go panics are modelled as `Except.error` with the panic message.
* Go maps (`map[uint32]uint8`, `map[uint32]*big.Int`) are modelled as
  association lists; iteration (`for k, v := range`) folds over the list,
  which fixes one of Go's admissible iteration orders.
* The packed `uint32` coordinate key `uint32(c)<<16 | uint32(r)` is modelled
  as `c * 65536 + r`; for the in-range coordinates (`r, c < 65536`) enforced
  by the constructors these agree, and the source's `k >> 16` and `k & 0xffff`
  become `k / 65536` and `k % 65536`.
-/

set_option maxHeartbeats 1000000

namespace Gof2

/-- The polynomial heap: `*big.Int` cells addressed by list index. -/
abbrev Heap := List Int

/-- Read a heap cell (a `*big.Int`'s current value). -/
def Heap.get (H : Heap) (a : Nat) : Int := H.getD a 0

/-- Write a heap cell in place. -/
def Heap.put (H : Heap) (a : Nat) (v : Int) : Heap := H.set a v

/-- Association-list lookup, modelling Go map access that distinguishes
presence (`v, ok := m[k]`). -/
def mfind (l : List (Nat × α)) (k : Nat) : Option α :=
  match l with
  | [] => none
  | (k', v) :: t => if k' = k then some v else mfind t k

/-- Go map read with zero default (`m[k]` for a `uint8`-valued map). -/
def mget (l : List (Nat × Nat)) (k : Nat) : Nat := (mfind l k).getD 0

/-- Go map store `m[k] = v`: replace the first binding or append. -/
def mset (l : List (Nat × α)) (k : Nat) (v : α) : List (Nat × α) :=
  match l with
  | [] => [(k, v)]
  | (k', v') :: t => if k' = k then (k', v) :: t else (k', v') :: mset t k v

/-- Go `delete(m, k)`. -/
def mdel (l : List (Nat × α)) (k : Nat) : List (Nat × α) :=
  match l with
  | [] => []
  | (k', v') :: t => if k' = k then mdel t k else (k', v') :: mdel t k

/-- The keys of an association list. -/
def mkeys (l : List (Nat × α)) : List Nat := l.map (·.1)

/-- Helper for `bitLen`: structural recursion on a fuel argument so that the
kernel can evaluate it (the fuel is always sufficient when it starts at the
number itself, since halving at least halves). -/
def bitLenAux : Nat → Nat → Nat
  | _, 0 => 0
  | 0, _ + 1 => 0
  | f + 1, n + 1 => bitLenAux f ((n + 1) / 2) + 1

/-- `big.Int.BitLen` for a non-negative value: minimal bit-vector length
(0 for 0, `floor(log2 n) + 1` otherwise). -/
def bitLen (n : Nat) : Nat := bitLenAux n n

/-- `big.Int.Sign`. -/
def sign (p : Int) : Int := Int.sign p

/-- Two's-complement bitwise XOR on `Int`, the semantics of `big.Int.Xor`. -/
def intXor : Int → Int → Int
  | .ofNat m, .ofNat n => .ofNat (m ^^^ n)
  | .ofNat m, .negSucc n => .negSucc (m ^^^ n)
  | .negSucc m, .ofNat n => .negSucc (m ^^^ n)
  | .negSucc m, .negSucc n => .ofNat (m ^^^ n)

/-- `big.Int.SetBit` at the value level (write bit `k` of `v` to `b`). -/
def natSetBit (v k : Nat) (b : Nat) : Nat :=
  if b ≠ 0 then v ||| (2 ^ k)
  else if v.testBit k then v ^^^ (2 ^ k) else v

/-- The shared constants `zeroP` and `oneP` at the value level. -/
def zeroP : Int := 0

/-- The shared constant `oneP`. -/
def oneP : Int := 1

/-- `to01`: the canonical 0/1 polynomial for a boolean. -/
def to01 (b : Bool) : Int := if b then oneP else zeroP

/-- `check01`: panics unless the polynomial is 0 or 1, returns its bit.
Source: `if p.Sign() < 0 || p.BitLen() > 1 { panic }; return uint8(p.Bit(0))`. -/
def check01 (p : Int) : Except String Nat :=
  if sign p < 0 ∨ bitLen p.toNat > 1 then
    .error ("cannot use polynomial " ++ toString p ++ " in binary element matrix")
  else
    .ok (p.toNat % 2)

/-- A 1-based loop range: `for i := 1; i <= n; i++` visits `range1 n`. -/
def range1 (n : Nat) : List Nat := (List.range n).map (· + 1)

/-- `SM` is a sparse matrix of binary elements (map of packed coordinate to
`uint8`). -/
structure SM where
  r : Nat
  c : Nat
  v : List (Nat × Nat)
deriving Repr, DecidableEq

/-- `NewSparse` creates a zero sparse matrix, validating the size. -/
def NewSparse (rows cols : Nat) : Except String SM :=
  if rows = 0 ∨ cols = 0 then
    .error ("cannot make " ++ toString rows ++ "x" ++ toString cols ++
      " matrix: size must be positive")
  else if 65535 < rows ∨ 65535 < cols then
    .error ("cannot make " ++ toString rows ++ "x" ++ toString cols ++
      " matrix: maximum dimension is 65535")
  else
    .ok ⟨rows, cols, []⟩

/-- `SM.index`: bounds check and packed coordinate. -/
def SM.index (A : SM) (r c : Nat) : Except String Nat :=
  if r < 1 ∨ A.r < r then
    .error ("row index " ++ toString r ++ " out of bounds (size " ++
      toString A.r ++ "x" ++ toString A.c ++ ")")
  else if c < 1 ∨ A.c < c then
    .error ("column index " ++ toString c ++ " out of bounds (size " ++
      toString A.r ++ "x" ++ toString A.c ++ ")")
  else
    .ok ((c - 1) * 65536 + (r - 1))

/-- `SM.At`: 1 (the shared `oneP`) iff the stored bit is non-zero. -/
def SM.At (A : SM) (r c : Nat) : Except String Int := do
  let k ← A.index r c
  if mget A.v k ≠ 0 then pure oneP else pure zeroP

/-- `SM.SetAt`. -/
def SM.SetAt (A : SM) (r c : Nat) (p : Int) : Except String SM := do
  let k ← A.index r c
  let b ← check01 p
  pure ⟨A.r, A.c, mset A.v k b⟩

/-- `SM.AddAt` (XOR into the stored bit). -/
def SM.AddAt (A : SM) (r c : Nat) (p : Int) : Except String (SM × Int) := do
  let k ← A.index r c
  let b ← check01 p
  let v := mget A.v k ^^^ b
  pure (⟨A.r, A.c, mset A.v k v⟩, to01 (v ≠ 0))

/-- `SM.MulAt` (AND into the stored bit). -/
def SM.MulAt (A : SM) (r c : Nat) (p : Int) : Except String (SM × Int) := do
  let k ← A.index r c
  let b ← check01 p
  let v := mget A.v k &&& b
  pure (⟨A.r, A.c, mset A.v k v⟩, to01 (v ≠ 0))

/-- `FM` is a full matrix of binary elements: one packed column-major
bit-vector (a single `big.Int` value). -/
structure FM where
  r : Nat
  c : Nat
  v : Nat
deriving Repr, DecidableEq

/-- `NewFull`: zero full matrix with the guard bit set one past the data. -/
def NewFull (rows cols : Nat) : Except String FM :=
  if rows = 0 ∨ cols = 0 then
    .error ("cannot make " ++ toString rows ++ "x" ++ toString cols ++
      " matrix: size must be positive")
  else if 65535 < rows ∨ 65535 < cols then
    .error ("cannot make " ++ toString rows ++ "x" ++ toString cols ++
      " matrix: maximum dimension is 65535")
  else
    .ok ⟨rows, cols, natSetBit 0 (rows * cols) 1⟩

/-- `FM.index`: bounds check and column-major bit position. -/
def FM.index (A : FM) (r c : Nat) : Except String Nat :=
  if r < 1 ∨ A.r < r then
    .error ("row index " ++ toString r ++ " out of bounds (size " ++
      toString A.r ++ "x" ++ toString A.c ++ ")")
  else if c < 1 ∨ A.c < c then
    .error ("column index " ++ toString c ++ " out of bounds (size " ++
      toString A.r ++ "x" ++ toString A.c ++ ")")
  else
    .ok ((c - 1) * A.r + (r - 1))

/-- `FM.At`. -/
def FM.At (A : FM) (r c : Nat) : Except String Int := do
  let k ← A.index r c
  if A.v.testBit k then pure oneP else pure zeroP

/-- `FM.SetAt`. -/
def FM.SetAt (A : FM) (r c : Nat) (p : Int) : Except String FM := do
  let k ← A.index r c
  let b ← check01 p
  pure ⟨A.r, A.c, natSetBit A.v k b⟩

/-- `FM.AddAt`. -/
def FM.AddAt (A : FM) (r c : Nat) (p : Int) : Except String (FM × Int) := do
  let k ← A.index r c
  let b ← check01 p
  let v := (if A.v.testBit k then 1 else 0) ^^^ b
  pure (⟨A.r, A.c, natSetBit A.v k v⟩, to01 (v ≠ 0))

/-- `FM.MulAt`. -/
def FM.MulAt (A : FM) (r c : Nat) (p : Int) : Except String (FM × Int) := do
  let k ← A.index r c
  let b ← check01 p
  let v := (if A.v.testBit k then 1 else 0) &&& b
  pure (⟨A.r, A.c, natSetBit A.v k v⟩, to01 (v ≠ 0))

/-- `PSM` is a sparse polynomial matrix: map of packed coordinate to a
`*big.Int` reference (a heap address). -/
structure PSM where
  r : Nat
  c : Nat
  v : List (Nat × Nat)
deriving Repr, DecidableEq

/-- `NewPSparse`. -/
def NewPSparse (rows cols : Nat) : Except String PSM :=
  if rows = 0 ∨ cols = 0 then
    .error ("cannot make " ++ toString rows ++ "x" ++ toString cols ++
      " matrix: size must be positive")
  else if 65535 < rows ∨ 65535 < cols then
    .error ("cannot make " ++ toString rows ++ "x" ++ toString cols ++
      " matrix: maximum dimension is 65535")
  else
    .ok ⟨rows, cols, []⟩

/-- `PSM.index`. -/
def PSM.index (A : PSM) (r c : Nat) : Except String Nat :=
  if r < 1 ∨ A.r < r then
    .error ("row index " ++ toString r ++ " out of bounds (size " ++
      toString A.r ++ "x" ++ toString A.c ++ ")")
  else if c < 1 ∨ A.c < c then
    .error ("column index " ++ toString c ++ " out of bounds (size " ++
      toString A.r ++ "x" ++ toString A.c ++ ")")
  else
    .ok ((c - 1) * 65536 + (r - 1))

/-- `PSM.At`, exactly as written in the source:

```go
if p := A.v[k]; p == nil || p.Sign() == 0 {
    if p.Sign() == 0 { delete(A.v, k) }
    return p
}
return new(big.Int)
```

When the entry is absent (`p == nil`) the inner `p.Sign()` dereferences a nil
pointer (a Go runtime panic); when it is present and zero the entry is deleted
and the stored (zero) reference returned; when it is present and non-zero the
function returns a freshly allocated zero polynomial.  The result is the value
read together with the possibly compacted matrix. -/
def PSM.At (A : PSM) (H : Heap) (r c : Nat) : Except String (Int × PSM) := do
  let k ← A.index r c
  match mfind A.v k with
  | none => .error "runtime error: invalid memory address or nil pointer dereference"
  | some p =>
    if H.get p = 0 then
      pure (H.get p, ⟨A.r, A.c, mdel A.v k⟩)
    else
      pure (0, A)

/-- `PSM.SetAt`: zero removes the entry, non-zero stores the reference
(no copy).  `p` is the caller's `*big.Int`, i.e. a heap address. -/
def PSM.SetAt (A : PSM) (H : Heap) (r c : Nat) (p : Nat) : Except String PSM := do
  let k ← A.index r c
  if H.get p = 0 then
    pure ⟨A.r, A.c, mdel A.v k⟩
  else
    pure ⟨A.r, A.c, mset A.v k p⟩

/-- `PSM.AddAt`: get-or-insert a fresh zero cell, then XOR in place; returns
the live reference. -/
def PSM.AddAt (A : PSM) (H : Heap) (r c : Nat) (p : Nat) :
    Except String (PSM × Heap × Nat) := do
  let k ← A.index r c
  match mfind A.v k with
  | some q => pure (A, H.put q (intXor (H.get q) (H.get p)), q)
  | none =>
    let q := H.length
    let H' := H ++ [(0 : Int)]
    pure (⟨A.r, A.c, mset A.v k q⟩, H'.put q (intXor (H'.get q) (H'.get p)), q)

/-- `PSM.MulAt`: in-place `big.Int` multiplication (note: the source uses
integer `Mul`, not a carryless convolution). -/
def PSM.MulAt (A : PSM) (H : Heap) (r c : Nat) (p : Nat) :
    Except String (PSM × Heap × Nat) := do
  let k ← A.index r c
  match mfind A.v k with
  | some q => pure (A, H.put q (H.get q * H.get p), q)
  | none =>
    let q := H.length
    pure (⟨A.r, A.c, mset A.v k q⟩, H ++ [(0 : Int)], q)

/-- `PFM` is a full polynomial matrix: a flat column-major array of
`*big.Int` references. -/
structure PFM where
  r : Nat
  c : Nat
  v : List Nat
deriving Repr, DecidableEq

/-- `NewPFull`: allocates all `rows*cols` elements as fresh zero polynomials. -/
def NewPFull (rows cols : Nat) (H : Heap) : Except String (PFM × Heap) :=
  if rows = 0 ∨ cols = 0 then
    .error ("cannot make " ++ toString rows ++ "x" ++ toString cols ++
      " matrix: size must be positive")
  else if 65535 < rows ∨ 65535 < cols then
    .error ("cannot make " ++ toString rows ++ "x" ++ toString cols ++
      " matrix: maximum dimension is 65535")
  else
    .ok (⟨rows, cols, (List.range (rows * cols)).map (H.length + ·)⟩,
      H ++ List.replicate (rows * cols) (0 : Int))

/-- `PFM.index`. -/
def PFM.index (A : PFM) (r c : Nat) : Except String Nat :=
  if r < 1 ∨ A.r < r then
    .error ("row index " ++ toString r ++ " out of bounds (size " ++
      toString A.r ++ "x" ++ toString A.c ++ ")")
  else if c < 1 ∨ A.c < c then
    .error ("column index " ++ toString c ++ " out of bounds (size " ++
      toString A.r ++ "x" ++ toString A.c ++ ")")
  else
    .ok ((c - 1) * A.r + (r - 1))

/-- `PFM.At`: always returns the live reference; we read its value.  A slot
missing from the backing array (impossible via the constructors) is a Go
index panic. -/
def PFM.At (A : PFM) (H : Heap) (r c : Nat) : Except String Int := do
  let k ← A.index r c
  match A.v.get? k with
  | some a => pure (H.get a)
  | none => .error "runtime error: index out of range"

/-- `PFM.SetAt` stores the given reference (no copy). -/
def PFM.SetAt (A : PFM) (r c : Nat) (p : Nat) : Except String PFM := do
  let k ← A.index r c
  pure ⟨A.r, A.c, A.v.set k p⟩

/-- `PFM.AddAt`: XOR in place into the stored cell. -/
def PFM.AddAt (A : PFM) (H : Heap) (r c : Nat) (p : Nat) :
    Except String (PFM × Heap × Nat) := do
  let k ← A.index r c
  match A.v.get? k with
  | some q => pure (A, H.put q (intXor (H.get q) (H.get p)), q)
  | none => .error "runtime error: index out of range"

/-- `PFM.MulAt`: `big.Int` multiplication in place. -/
def PFM.MulAt (A : PFM) (H : Heap) (r c : Nat) (p : Nat) :
    Except String (PFM × Heap × Nat) := do
  let k ← A.index r c
  match A.v.get? k with
  | some q => pure (A, H.put q (H.get q * H.get p), q)
  | none => .error "runtime error: index out of range"

/-- `I` is the immutable rectangular identity matrix. -/
structure I where
  r : Nat
  c : Nat
deriving Repr, DecidableEq

/-- `Eye` creates an identity matrix (positive size required). -/
def Eye (rows cols : Nat) : Except String I :=
  if rows = 0 ∨ cols = 0 then
    .error ("can't create " ++ toString rows ++ "x" ++ toString cols ++
      " I: size must be positive")
  else
    .ok ⟨rows, cols⟩

/-- `I.At`. -/
def I.At (A : I) (r c : Nat) : Except String Int :=
  if r < 1 ∨ A.r < r ∨ c < 1 ∨ A.c < c then
    .error ("index (" ++ toString r ++ "," ++ toString c ++
      ") out of bounds (size " ++ toString A.r ++ "x" ++ toString A.c ++ ")")
  else
    .ok (to01 (r = c))

/-- `Z` is the immutable rectangular zero matrix. -/
structure Z where
  r : Nat
  c : Nat
deriving Repr, DecidableEq

/-- `Zeros` creates a zero matrix (positive size required). -/
def Zeros (rows cols : Nat) : Except String Z :=
  if rows = 0 ∨ cols = 0 then
    .error ("can't create " ++ toString rows ++ "x" ++ toString cols ++
      " Z: size must be positive")
  else
    .ok ⟨rows, cols⟩

/-- `Z.At`. -/
def Z.At (A : Z) (r c : Nat) : Except String Int :=
  if r < 1 ∨ A.r < r ∨ c < 1 ∨ A.c < c then
    .error ("index (" ++ toString r ++ "," ++ toString c ++
      ") out of bounds (size " ++ toString A.r ++ "x" ++ toString A.c ++ ")")
  else
    .ok zeroP

/-- `R` is the immutable rotation matrix; `n` is the (reduced) rotate
amount. -/
structure R where
  s : Nat
  n : Int
deriving Repr, DecidableEq

/-- `Rol`: `n` is reduced with Go's truncated `%`, `Int.tmod` here. -/
def Rol (size : Nat) (shift : Int) : Except String R :=
  if size = 0 then
    .error ("can't create " ++ toString size ++ "x" ++ toString size ++
      " R: size must be positive")
  else
    .ok ⟨size, Int.tmod shift size⟩

/-- `R.At`, exactly as written in the source:

```go
r = (r-1+rot.n)%rot.s + 1
if r < 0 { r += rot.s }
return to01(r == c)
```

(`%` is Go's truncated remainder; note the `r < 0` test happens after the
`+ 1`.) -/
def R.At (A : R) (r c : Nat) : Except String Int :=
  if r < 1 ∨ A.s < r ∨ c < 1 ∨ A.s < c then
    .error ("index (" ++ toString r ++ "," ++ toString c ++
      ") out of bounds (size " ++ toString A.s ++ "x" ++ toString A.s ++ ")")
  else
    let r' : Int := Int.tmod ((r : Int) - 1 + A.n) (A.s : Int) + 1
    let r' := if r' < 0 then r' + A.s else r'
    .ok (to01 (r' = c))

/-- `S` is the immutable shift matrix; `n` is the left-shift amount. -/
structure S where
  s : Nat
  n : Int
deriving Repr, DecidableEq

/-- `Shl`. -/
def Shl (size : Nat) (shift : Int) : Except String S :=
  if size = 0 then
    .error ("can't create " ++ toString size ++ "x" ++ toString size ++
      " S: size must be positive")
  else
    .ok ⟨size, shift⟩

/-- `S.At`: 1 iff `r + n = c`. -/
def S.At (A : S) (r c : Nat) : Except String Int :=
  if r < 1 ∨ A.s < r ∨ c < 1 ∨ A.s < c then
    .error ("index (" ++ toString r ++ "," ++ toString c ++
      ") out of bounds (size " ++ toString A.s ++ "x" ++ toString A.s ++ ")")
  else
    .ok (to01 ((r : Int) + A.n = c))

/-- The closed set of matrix kinds implementing the `M` interface. -/
inductive M where
  | sm : SM → M
  | fm : FM → M
  | psm : PSM → M
  | pfm : PFM → M
  | i : I → M
  | z : Z → M
  | r : R → M
  | s : S → M
deriving Repr, DecidableEq

/-- `M.Size`. -/
def M.size : M → Nat × Nat
  | .sm A => (A.r, A.c)
  | .fm A => (A.r, A.c)
  | .psm A => (A.r, A.c)
  | .pfm A => (A.r, A.c)
  | .i A => (A.r, A.c)
  | .z A => (A.r, A.c)
  | .r A => (A.s, A.s)
  | .s A => (A.s, A.s)

/-- Dynamic dispatch of `At` through the interface.  The result carries the
possibly updated receiver (`PSM.At` compacts its map in place). -/
def M.At (A : M) (H : Heap) (r c : Nat) : Except String (Int × M) :=
  match A with
  | .sm x => do pure ((← x.At r c), A)
  | .fm x => do pure ((← x.At r c), A)
  | .psm x => do let (p, x') ← x.At H r c; pure (p, .psm x')
  | .pfm x => do pure ((← x.At H r c), A)
  | .i x => do pure ((← x.At r c), A)
  | .z x => do pure ((← x.At r c), A)
  | .r x => do pure ((← x.At r c), A)
  | .s x => do pure ((← x.At r c), A)

/-- Dynamic dispatch of `SetAt`.  The polynomial argument is a `*big.Int`,
i.e. a heap address; binary kinds read its value, polynomial kinds store the
reference.  Returns the updated receiver and heap. -/
def M.SetAt (A : M) (H : Heap) (r c : Nat) (p : Nat) : Except String (M × Heap) :=
  match A with
  | .sm x => do pure (.sm (← x.SetAt r c (H.get p)), H)
  | .fm x => do pure (.fm (← x.SetAt r c (H.get p)), H)
  | .psm x => do pure (.psm (← x.SetAt H r c p), H)
  | .pfm x => do pure (.pfm (← x.SetAt r c p), H)
  | .i _ | .z _ | .r _ | .s _ =>
    .error "immutable matrix must be converted before modifying"

/-- Dynamic dispatch of `AddAt`. -/
def M.AddAt (A : M) (H : Heap) (r c : Nat) (p : Nat) : Except String (M × Heap) :=
  match A with
  | .sm x => do pure (.sm (← x.AddAt r c (H.get p)).1, H)
  | .fm x => do pure (.fm (← x.AddAt r c (H.get p)).1, H)
  | .psm x => do let (x', H', _) ← x.AddAt H r c p; pure (.psm x', H')
  | .pfm x => do let (x', H', _) ← x.AddAt H r c p; pure (.pfm x', H')
  | .i _ | .z _ | .r _ | .s _ =>
    .error "immutable matrix must be converted before modifying"

/-- Dynamic dispatch of `MulAt`. -/
def M.MulAt (A : M) (H : Heap) (r c : Nat) (p : Nat) : Except String (M × Heap) :=
  match A with
  | .sm x => do pure (.sm (← x.MulAt r c (H.get p)).1, H)
  | .fm x => do pure (.fm (← x.MulAt r c (H.get p)).1, H)
  | .psm x => do let (x', H', _) ← x.MulAt H r c p; pure (.psm x', H')
  | .pfm x => do let (x', H', _) ← x.MulAt H r c p; pure (.pfm x', H')
  | .i _ | .z _ | .r _ | .s _ =>
    .error "immutable matrix must be converted before modifying"

/-- The three mutation operations of the `M` interface, for quantifying over
"any subsequent `SetAt`/`AddAt`/`MulAt`". -/
inductive Mut where
  | set | add | mul
deriving Repr, DecidableEq

/-- Apply a mutation operation through the interface. -/
def Mut.apply : Mut → M → Heap → Nat → Nat → Nat → Except String (M × Heap)
  | .set, A, H, r, c, p => M.SetAt A H r c p
  | .add, A, H, r, c, p => M.AddAt A H r c p
  | .mul, A, H, r, c, p => M.MulAt A H r c p

/-- `Sparse` converts any matrix to a new sparse binary matrix.  The `FM`
fast path word-scans the bit vector; for a well-formed `FM`
(`v < 2^(rows*cols+1)`) that is the same as probing every bit position up to
and including the guard bit, which the `c < B.c` test then excludes. -/
def Sparse (m : M) (H : Heap) : Except String SM :=
  let (rows, cols) := m.size
  if 65535 < rows ∨ 65535 < cols then
    .error ("cannot make " ++ toString rows ++ "x" ++ toString cols ++
      " matrix: maximum dimension is 65535")
  else
    match m with
    | .sm A => .ok ⟨rows, cols, A.v.foldl (fun acc kv =>
        if kv.2 ≠ 0 then mset acc kv.1 kv.2 else acc) []⟩
    | .fm A => .ok ⟨rows, cols, (List.range (rows * cols + 1)).foldl (fun acc b =>
        if A.v.testBit b ∧ b / rows < cols then
          mset acc ((b / rows) * 65536 + b % rows) 1
        else acc) []⟩
    | .i _ => .ok ⟨rows, cols, (List.range rows).foldl (fun acc k =>
        mset acc (k * 65537) 1) []⟩
    | .z _ => .ok ⟨rows, cols, []⟩
    | .r A => .ok ⟨rows, cols, (List.range rows).foldl (fun acc (i : Nat) =>
        let rr : Int := (i : Int) + Int.tmod A.n rows
        let rr := if rr < 0 then rr + rows else rr
        mset acc (rr.toNat * 65536 + i) 1) []⟩
    | .s A =>
      if 0 ≤ A.n then
        .ok ⟨rows, cols, (List.range (rows - A.n.toNat)).foldl (fun acc i =>
          mset acc ((i + A.n.toNat) * 65536 + i) 1) []⟩
      else
        .ok ⟨rows, cols, (List.range (rows - (-A.n).toNat)).foldl (fun acc i =>
          mset acc (i * 65536 + (i + (-A.n).toNat)) 1) []⟩
    | _ => do
      let st ← (List.range rows).foldlM (fun st r =>
        (List.range cols).foldlM (fun (st : List (Nat × Nat) × M) c => do
          let (p, m') ← M.At st.2 H (r + 1) (c + 1)
          let b ← check01 p
          if b ≠ 0 then pure (mset st.1 (c * 65536 + r) 1, m')
          else pure (st.1, m')) st) (([] : List (Nat × Nat)), m)
      pure ⟨rows, cols, st.1⟩

/-- `Full` converts any matrix to a new full binary matrix.  The source
special-cases `SM`, `FM` and `I`; everything else goes through the generic
`At` loop. -/
def Full (m : M) (H : Heap) : Except String FM :=
  let (rows, cols) := m.size
  if 65535 < rows ∨ 65535 < cols then
    .error ("cannot make " ++ toString rows ++ "x" ++ toString cols ++
      " matrix: maximum dimension is 65535")
  else
    match m with
    | .sm A => .ok ⟨rows, cols, A.v.foldl (fun acc kv =>
        if kv.2 ≠ 0 then natSetBit acc ((kv.1 / 65536) * rows + kv.1 % 65536) 1
        else acc) (natSetBit 0 (rows * cols) 1)⟩
    | .fm A => .ok ⟨rows, cols, A.v⟩
    | .i _ => .ok ⟨rows, cols, (List.range rows).foldl (fun acc k =>
        natSetBit acc (k * rows + k) 1) (natSetBit 0 (rows * cols) 1)⟩
    | _ => do
      let st ← (List.range rows).foldlM (fun st r =>
        (List.range cols).foldlM (fun (st : Nat × M) c => do
          let (p, m') ← M.At st.2 H (r + 1) (c + 1)
          let b ← check01 p
          if b ≠ 0 then pure (natSetBit st.1 (c * rows + r) 1, m')
          else pure (st.1, m')) st) (natSetBit 0 (rows * cols) 1, m)
      pure ⟨rows, cols, st.1⟩

/-- `PFull` converts any matrix to a new full polynomial matrix via the
generic loop — which, in the source, reads `m.At(r, c)` with the **zero-based**
loop indices (`r` from 0, `c` from 0), so the very first read is out of
bounds. -/
def PFull (m : M) (H : Heap) : Except String (PFM × Heap) :=
  let (rows, cols) := m.size
  if 65535 < rows ∨ 65535 < cols then
    .error ("cannot make " ++ toString rows ++ "x" ++ toString cols ++
      " matrix: maximum dimension is 65535")
  else do
    let st ← (List.range cols).foldlM (fun st c =>
      (List.range rows).foldlM (fun (st : List Nat × M × Heap) r => do
        let (v, m', H') := st
        let (p, m') ← M.At m' H' r c
        pure (v.set (c * rows + r) H'.length, m', H' ++ [p])) st)
      (List.replicate (rows * cols) 0, m, H)
    pure (⟨rows, cols, st.1⟩, st.2.2)

/-- One step of `fMulFull`'s innermost loop:
`d ^= check01(A.At(r, i)) & check01(B.At(i, c))`, threading the operands
(whose `At` may compact them). -/
def fmfInner (H : Heap) (r c : Nat) (st : Nat × M × M) (i : Nat) :
    Except String (Nat × M × M) := do
  let (d, A, B) := st
  let (pa, A) ← M.At A H r i
  let a ← check01 pa
  let (pb, B) ← M.At B H i c
  let b ← check01 pb
  pure (d ^^^ (a &&& b), A, B)

/-- One step of `fMulFull`'s row loop: accumulate the inner products for the
cell `(r, c)` and `C.SetAt(r, c, to01(d != 0))`. -/
def fmfCell (H : Heap) (ac c : Nat) (st : FM × M × M) (r : Nat) :
    Except String (FM × M × M) := do
  let (C, A, B) := st
  let inner ← (range1 ac).foldlM (fmfInner H r c) (0, A, B)
  let C ← C.SetAt r c (to01 (inner.1 ≠ 0))
  pure (C, inner.2)

/-- One step of `fMulFull`'s column loop: the full row loop for column `c`. -/
def fmfCol (H : Heap) (ar ac : Nat) (st : FM × M × M) (c : Nat) :
    Except String (FM × M × M) :=
  (range1 ar).foldlM (fmfCell H ac c) st

/-- `fMulFull` multiplies two matrices into a new `FM` by the generic triple
loop over `At` (the loop bodies are the named helpers above). -/
def fMulFull (A B : M) (H : Heap) : Except String FM := do
  let (ar, ac) := A.size
  let (_, bc) := B.size
  let C0 ← NewFull ar bc
  let st ← (range1 bc).foldlM (fmfCol H ar ac) (C0, A, B)
  pure st.1

/-- `fMulSX` multiplies a sparse binary matrix by another matrix into a new
`SM`. -/
def fMulSX (A : SM) (B : M) (H : Heap) : Except String SM := do
  let ar := A.r
  let ac := A.c
  let (_, bc) := B.size
  let C0 ← NewSparse ar bc
  match B with
  | .sm X => .ok ⟨ar, bc, A.v.foldl (fun acc ja =>
      if ja.2 = 0 then acc else
      X.v.foldl (fun acc kb =>
        if ja.1 / 65536 = kb.1 % 65536 then
          let key := (kb.1 / 65536) * 65536 + ja.1 % 65536
          mset acc key (mget acc key ^^^ (ja.2 &&& kb.2))
        else acc) acc) C0.v⟩
  | .psm X => do
      let v ← A.v.foldlM (fun acc ja =>
        if ja.2 = 0 then pure acc else
        X.v.foldlM (fun acc kb =>
          if ja.1 / 65536 = kb.1 % 65536 then do
            let b ← check01 (H.get kb.2)
            let key := (kb.1 / 65536) * 65536 + ja.1 % 65536
            pure (mset acc key (mget acc key ^^^ (ja.2 &&& b)))
          else pure acc) acc) C0.v
      pure ⟨ar, bc, v⟩
  | .i _ => .ok ⟨ar, bc, A.v.foldl (fun acc ja =>
      if ja.2 ≠ 0 ∧ ja.1 / 65536 < bc ∧ ja.1 % 65536 < ar then mset acc ja.1 1
      else acc) C0.v⟩
  | .z _ => .ok ⟨ar, bc, C0.v⟩
  | .r X => .ok ⟨ar, bc, A.v.foldl (fun acc ja =>
      if ja.2 ≠ 0 then
        let cc := Int.tmod ((ja.1 / 65536 : Nat) - X.n) bc
        let cc := if cc < 0 then cc + bc else cc
        mset acc (cc.toNat * 65536 + ja.1 % 65536) 1
      else acc) C0.v⟩
  | .s X =>
      if 0 ≤ X.n then
        .ok ⟨ar, bc, A.v.foldl (fun acc ja =>
          let cc : Int := (ja.1 / 65536 : Nat) - X.n
          if ja.2 ≠ 0 ∧ 0 ≤ cc then mset acc (cc.toNat * 65536 + ja.1 % 65536) 1
          else acc) C0.v⟩
      else
        .ok ⟨ar, bc, A.v.foldl (fun acc ja =>
          let cc : Int := (ja.1 / 65536 : Nat) - X.n
          if ja.2 ≠ 0 ∧ cc < bc then mset acc (cc.toNat * 65536 + ja.1 % 65536) 1
          else acc) C0.v⟩
  | _ => do
      let st ← A.v.foldlM (fun (st : List (Nat × Nat) × M) ja =>
        if ja.2 = 0 then pure st else do
          let rr := ja.1 % 65536
          let cc := ja.1 / 65536
          (List.range ac).foldlM (fun (st : List (Nat × Nat) × M) i => do
            let (pb, B') ← M.At st.2 H (cc + 1) (i + 1)
            let b ← check01 pb
            if b ≠ 0 then
              pure (mset st.1 (i * 65536 + rr) (mget st.1 (i * 65536 + rr) ^^^ 1), B')
            else pure (st.1, B')) st) (C0.v, B)
      pure ⟨ar, bc, st.1⟩

/-- `fMulPSX` multiplies a sparse polynomial matrix by another matrix into a
new `SM`; every element of `A` that participates goes through `check01`. -/
def fMulPSX (A : PSM) (B : M) (H : Heap) : Except String SM := do
  let ar := A.r
  let ac := A.c
  let (_, bc) := B.size
  let C0 ← NewSparse ar bc
  match B with
  | .sm X => do
      let v ← A.v.foldlM (fun acc ja =>
        if H.get ja.2 = 0 then pure acc else
        X.v.foldlM (fun acc kb =>
          if ja.1 / 65536 = kb.1 % 65536 then do
            let a ← check01 (H.get ja.2)
            let key := (kb.1 / 65536) * 65536 + ja.1 % 65536
            pure (mset acc key (mget acc key ^^^ (a &&& kb.2)))
          else pure acc) acc) C0.v
      pure ⟨ar, bc, v⟩
  | .psm X => do
      let v ← A.v.foldlM (fun acc ja =>
        if H.get ja.2 = 0 then pure acc else
        X.v.foldlM (fun acc kb =>
          if ja.1 / 65536 = kb.1 % 65536 then do
            let a ← check01 (H.get ja.2)
            let b ← check01 (H.get kb.2)
            let key := (kb.1 / 65536) * 65536 + ja.1 % 65536
            pure (mset acc key (mget acc key ^^^ (a &&& b)))
          else pure acc) acc) C0.v
      pure ⟨ar, bc, v⟩
  | .i _ => do
      let v ← A.v.foldlM (fun acc ja => do
        let a ← check01 (H.get ja.2)
        if a ≠ 0 ∧ ja.1 / 65536 < bc ∧ ja.1 % 65536 < ar then
          pure (mset acc ja.1 1)
        else pure acc) C0.v
      pure ⟨ar, bc, v⟩
  | .z _ => .ok ⟨ar, bc, C0.v⟩
  | .r X => do
      let v ← A.v.foldlM (fun acc ja => do
        let a ← check01 (H.get ja.2)
        if a ≠ 0 then
          let cc := Int.tmod ((ja.1 / 65536 : Nat) - X.n) bc
          let cc := if cc < 0 then cc + bc else cc
          pure (mset acc (cc.toNat * 65536 + ja.1 % 65536) 1)
        else pure acc) C0.v
      pure ⟨ar, bc, v⟩
  | .s X =>
      if 0 ≤ X.n then do
        let v ← A.v.foldlM (fun acc ja => do
          let a ← check01 (H.get ja.2)
          let cc : Int := (ja.1 / 65536 : Nat) - X.n
          if a ≠ 0 ∧ 0 ≤ cc then pure (mset acc (cc.toNat * 65536 + ja.1 % 65536) 1)
          else pure acc) C0.v
        pure ⟨ar, bc, v⟩
      else do
        let v ← A.v.foldlM (fun acc ja => do
          let a ← check01 (H.get ja.2)
          let cc : Int := (ja.1 / 65536 : Nat) - X.n
          if a ≠ 0 ∧ cc < bc then pure (mset acc (cc.toNat * 65536 + ja.1 % 65536) 1)
          else pure acc) C0.v
        pure ⟨ar, bc, v⟩
  | _ => do
      let st ← A.v.foldlM (fun (st : List (Nat × Nat) × M) ja => do
        let a ← check01 (H.get ja.2)
        if a = 0 then pure st else do
          let rr := ja.1 % 65536
          let cc := ja.1 / 65536
          (List.range ac).foldlM (fun (st : List (Nat × Nat) × M) i => do
            let (pb, B') ← M.At st.2 H (cc + 1) (i + 1)
            let b ← check01 pb
            if b ≠ 0 then
              pure (mset st.1 (i * 65536 + rr) (mget st.1 (i * 65536 + rr) ^^^ 1), B')
            else pure (st.1, B')) st) (C0.v, B)
      pure ⟨ar, bc, st.1⟩

/-- `fMulXS` multiplies a matrix by a sparse binary matrix into a new `SM`.
In the source, the negative-shift `S` case masks the row with `0xfff`
(4095) instead of `0xffff`; this is embedded as written. -/
def fMulXS (A : M) (B : SM) (H : Heap) : Except String SM := do
  let (ar, ac) := A.size
  let bc := B.c
  let C0 ← NewSparse ar bc
  match A with
  | .r X => .ok ⟨ar, bc, B.v.foldl (fun acc ja =>
      if ja.2 ≠ 0 then
        let rr := Int.tmod ((ja.1 % 65536 : Nat) - X.n) ar
        let rr := if rr < 0 then rr + ar else rr
        mset acc ((ja.1 / 65536) * 65536 + rr.toNat) 1
      else acc) C0.v⟩
  | .s X =>
      if 0 ≤ X.n then
        .ok ⟨ar, bc, B.v.foldl (fun acc ja =>
          let rr : Int := (ja.1 % 65536 : Nat) + X.n
          if ja.2 ≠ 0 ∧ rr < ar then mset acc ((ja.1 / 65536) * 65536 + rr.toNat) 1
          else acc) C0.v⟩
      else
        .ok ⟨ar, bc, B.v.foldl (fun acc ja =>
          let rr : Int := (ja.1 % 4096 : Nat) + X.n
          if ja.2 ≠ 0 ∧ 0 ≤ rr then mset acc ((ja.1 / 65536) * 65536 + rr.toNat) 1
          else acc) C0.v⟩
  | _ => do
      let st ← B.v.foldlM (fun (st : List (Nat × Nat) × M) ja =>
        if ja.2 = 0 then pure st else do
          let rr := ja.1 % 65536
          let cc := ja.1 / 65536
          (List.range ac).foldlM (fun (st : List (Nat × Nat) × M) i => do
            let (pa, A') ← M.At st.2 H (i + 1) (rr + 1)
            let b ← check01 pa
            if b ≠ 0 then
              pure (mset st.1 (cc * 65536 + i) (mget st.1 (cc * 65536 + i) ^^^ 1), A')
            else pure (st.1, A')) st) (C0.v, A)
      pure ⟨ar, bc, st.1⟩

/-- `fMulXPS` multiplies a matrix by a sparse polynomial matrix into a new
`SM`; has the same `0xfff` mask as `fMulXS`. -/
def fMulXPS (A : M) (B : PSM) (H : Heap) : Except String SM := do
  let (ar, ac) := A.size
  let bc := B.c
  let C0 ← NewSparse ar bc
  match A with
  | .r X => do
      let v ← B.v.foldlM (fun acc ja => do
        let a ← check01 (H.get ja.2)
        if a ≠ 0 then
          let rr := Int.tmod ((ja.1 % 65536 : Nat) - X.n) ar
          let rr := if rr < 0 then rr + ar else rr
          pure (mset acc ((ja.1 / 65536) * 65536 + rr.toNat) 1)
        else pure acc) C0.v
      pure ⟨ar, bc, v⟩
  | .s X =>
      if 0 ≤ X.n then do
        let v ← B.v.foldlM (fun acc ja => do
          let a ← check01 (H.get ja.2)
          let rr : Int := (ja.1 % 65536 : Nat) + X.n
          if a ≠ 0 ∧ rr < ar then pure (mset acc ((ja.1 / 65536) * 65536 + rr.toNat) 1)
          else pure acc) C0.v
        pure ⟨ar, bc, v⟩
      else do
        let v ← B.v.foldlM (fun acc ja => do
          let a ← check01 (H.get ja.2)
          let rr : Int := (ja.1 % 4096 : Nat) + X.n
          if a ≠ 0 ∧ 0 ≤ rr then pure (mset acc ((ja.1 / 65536) * 65536 + rr.toNat) 1)
          else pure acc) C0.v
        pure ⟨ar, bc, v⟩
  | _ => do
      let st ← B.v.foldlM (fun (st : List (Nat × Nat) × M) ja => do
        let a ← check01 (H.get ja.2)
        if a = 0 then pure st else do
          let rr := ja.1 % 65536
          let cc := ja.1 / 65536
          (List.range ac).foldlM (fun (st : List (Nat × Nat) × M) i => do
            let (pa, A') ← M.At st.2 H (i + 1) (rr + 1)
            let b ← check01 pa
            if b ≠ 0 then
              pure (mset st.1 (cc * 65536 + i) (mget st.1 (cc * 65536 + i) ^^^ 1), A')
            else pure (st.1, A')) st) (C0.v, A)
      pure ⟨ar, bc, st.1⟩

/-- The part of `FMul` after the first type switch (reached when the first
switch falls through). -/
def fMul2 (A B : M) (H : Heap) (ar bc : Nat) : Except String M :=
  match B with
  | .z _ => (Zeros ar bc).map .z
  | .sm y => (fMulXS A y H).map .sm
  | .psm y => (fMulXPS A y H).map .sm
  | .i _ =>
    match A with
    | .fm _ => (Full A H).map .fm
    | _ => (fMulFull A B H).map .fm
  | _ => (fMulFull A B H).map .fm

/-- `FMul` multiplies two matrices in GF(2), dispatching on the operand
kinds as in the source. -/
def FMul (A B : M) (H : Heap) : Except String M :=
  let (ar, ac) := A.size
  let (br, bc) := B.size
  if ac ≠ br then
    .error ("inner dimension mismatch: " ++ toString ar ++ "x" ++ toString ac ++
      " * " ++ toString br ++ "x" ++ toString bc)
  else
    match A with
    | .z _ => (Zeros ar bc).map .z
    | .sm x => (fMulSX x B H).map .sm
    | .psm x => (fMulPSX x B H).map .sm
    | .i _ =>
      match B with
      | .sm _ => (Sparse B H).map .sm
      | .fm _ => (Full B H).map .fm
      | .i _ => (Eye ar bc).map .i
      | _ => fMul2 A B H ar bc
    | _ => fMul2 A B H ar bc

/-- The mathematical element value of a matrix at a 1-based in-bounds
coordinate.  For the binary and structural kinds this is exactly what `At`
returns; for `PSM` it reads the stored polynomial (the documented intent of
`PSM.At` — the code of `PSM.At` itself is analysed separately under C1). -/
def elemVal (A : M) (H : Heap) (r c : Nat) : Int :=
  match A with
  | .sm x => if mget x.v ((c - 1) * 65536 + (r - 1)) ≠ 0 then 1 else 0
  | .fm x => if x.v.testBit ((c - 1) * x.r + (r - 1)) then 1 else 0
  | .psm x =>
    match mfind x.v ((c - 1) * 65536 + (r - 1)) with
    | some a => H.get a
    | none => 0
  | .pfm x => H.get (x.v.getD ((c - 1) * x.r + (r - 1)) 0)
  | .i _ => if r = c then 1 else 0
  | .z _ => 0
  | .r x =>
    let r' : Int := Int.tmod ((r : Int) - 1 + x.n) (x.s : Int) + 1
    let r' := if r' < 0 then r' + x.s else r'
    if r' = c then 1 else 0
  | .s x => if (r : Int) + x.n = c then 1 else 0

/-- All keys of a sparse backing map denote in-range zero-based
coordinates. -/
def keysInRange (v : List (Nat × α)) (rows cols : Nat) : Prop :=
  ∀ kv ∈ v, kv.1 % 65536 < rows ∧ kv.1 / 65536 < cols

/-- Well-formedness of each kind: the invariants established by the
constructors and preserved by the operations. -/
def M.WF : M → Prop
  | .sm x => 1 ≤ x.r ∧ x.r ≤ 65535 ∧ 1 ≤ x.c ∧ x.c ≤ 65535 ∧
      (mkeys x.v).Nodup ∧ keysInRange x.v x.r x.c
  | .fm x => 1 ≤ x.r ∧ x.r ≤ 65535 ∧ 1 ≤ x.c ∧ x.c ≤ 65535 ∧
      x.v < 2 ^ (x.r * x.c + 1)
  | .psm x => 1 ≤ x.r ∧ x.r ≤ 65535 ∧ 1 ≤ x.c ∧ x.c ≤ 65535 ∧
      (mkeys x.v).Nodup ∧ keysInRange x.v x.r x.c
  | .pfm x => 1 ≤ x.r ∧ x.r ≤ 65535 ∧ 1 ≤ x.c ∧ x.c ≤ 65535 ∧
      x.v.length = x.r * x.c
  | .i x => 1 ≤ x.r ∧ 1 ≤ x.c
  | .z x => 1 ≤ x.r ∧ 1 ≤ x.c
  | .r x => 1 ≤ x.s ∧ -(x.s : Int) < x.n ∧ x.n < x.s
  | .s x => 1 ≤ x.s

/-- Every in-bounds element of the matrix is 0 or 1. -/
def binaryElems (A : M) (H : Heap) : Prop :=
  ∀ r c, 1 ≤ r → r ≤ A.size.1 → 1 ≤ c → c ≤ A.size.2 →
    elemVal A H r c = 0 ∨ elemVal A H r c = 1

/-- The heap addresses (mutable `*big.Int` references) a matrix's storage
holds.  Only the polynomial kinds hold references. -/
def M.addrs : M → List Nat
  | .psm x => x.v.map (·.2)
  | .pfm x => x.v
  | _ => []

/-- Whether a matrix is of the structural `Z` (Zero) kind. -/
def M.isZ : M → Bool
  | .z _ => true
  | _ => false

/-- Whether a matrix is of one of the sparse kinds (`SM` or `PSM`), the
kinds `FMul`'s first type switch dispatches on before examining `B`. -/
def M.isSparseKind : M → Bool
  | .sm _ => true
  | .psm _ => true
  | _ => false

/-- C1: the claim states that `PSM.At` returns the stored polynomial when the
entry is present and non-zero, and a zero value *without failing* when the
entry is absent.  The code does neither: on a 1×1 `PSM` whose (1,1) entry
stores the polynomial 1 (heap cell 0), `At` returns a fresh zero polynomial
(value 0, matrix unchanged); and on the empty `PSM` it dereferences a nil
`*big.Int` (`p.Sign()` with `p == nil`), a runtime panic. -/
theorem c1_psm_at_bug :
    PSM.At ⟨1, 1, [(0, 0)]⟩ [(1 : Int)] 1 1 = .ok (0, ⟨1, 1, [(0, 0)]⟩) ∧
    Heap.get [(1 : Int)] 0 = 1 ∧
    PSM.At ⟨1, 1, []⟩ [] 1 1 =
      .error "runtime error: invalid memory address or nil pointer dereference" :=
  ⟨rfl, rfl, rfl⟩

/-- C2: the claim states that every concrete kind's freshly constructed zero
matrix answers `At` with the zero element without panicking.  For the
sparse-polynomial kind this fails: `NewPSparse 1 1` succeeds, but reading
`At(1,1)` hits the nil-pointer branch of `PSM.At` and panics instead of
returning 0.  (The `SM`, `FM` and `PFM` constructors are fine.) -/
theorem c2_newpsparse_at_bug :
    NewPSparse 1 1 = .ok ⟨1, 1, []⟩ ∧
    M.At (M.psm ⟨1, 1, []⟩) [] 1 1 =
      .error "runtime error: invalid memory address or nil pointer dereference" :=
  ⟨rfl, rfl⟩

/-- C3: the claim states the conversion round-trip law through every
converter.  The `PFull` converter reads `m.At(r, c)` with its zero-based loop
indices, so converting even the 1×1 zero sparse matrix panics with an
out-of-bounds row index 0; no round trip through the dense-polynomial kind
can succeed. -/
theorem c3_pfull_bug :
    NewSparse 1 1 = .ok ⟨1, 1, []⟩ ∧
    PFull (M.sm ⟨1, 1, []⟩) [] = .error "row index 0 out of bounds (size 1x1)" :=
  ⟨rfl, rfl⟩

/-- C4: the claim states `FMul` computes `C.At(i,j) = XOR_t A.At(i,t) AND
B.At(t,j)`.  Take `A` the 1×2 sparse matrix with a 1 at (1,1) and `B` the
2×3 full matrix with a 1 at (1,3) (bit 4 of the vector, plus the guard
bit 6).  The sparse-times-generic loop of `fMulSX` iterates the inner index
over `A`'s column count (2) instead of `B`'s column count (3), so column 3 of
`B` is never read: the product is the empty 1×3 matrix although the claim's
formula gives `A.At(1,1) AND B.At(1,3) = 1` at (1,3). -/
theorem c4_fmul_bug :
    FMul (M.sm ⟨1, 2, [(0, 1)]⟩) (M.fm ⟨2, 3, 80⟩) [] = .ok (M.sm ⟨1, 3, []⟩) ∧
    elemVal (M.sm ⟨1, 3, []⟩) [] 1 3 = 0 ∧
    M.At (M.sm ⟨1, 2, [(0, 1)]⟩) [] 1 1 = .ok (1, M.sm ⟨1, 2, [(0, 1)]⟩) ∧
    M.At (M.fm ⟨2, 3, 80⟩) [] 1 3 = .ok (1, M.fm ⟨2, 3, 80⟩) ∧
    M.At (M.sm ⟨1, 2, [(0, 1)]⟩) [] 1 2 = .ok (0, M.sm ⟨1, 2, [(0, 1)]⟩) ∧
    M.At (M.fm ⟨2, 3, 80⟩) [] 2 3 = .ok (0, M.fm ⟨2, 3, 80⟩) :=
  ⟨rfl, rfl, rfl, rfl, rfl, rfl⟩

/-- C5: the claim states `Rol(size, shift).At(r,c) = 1` iff
`((r−1+shift) mod size) + 1 = c` with the mathematical (non-negative) mod.
For `Rol 2 (-1)` at `(1,2)` the claim's rule gives
`((1−1−1) mod 2) + 1 = 2`, so `At(1,2)` should be 1 — but the code tests
`r < 0` *after* already adding 1 to the truncated remainder, so the row
value sticks at 0 and `At(1,2)` (indeed the whole first row) reads 0. -/
theorem c5_rol_at_bug :
    Rol 2 (-1) = .ok ⟨2, -1⟩ ∧
    R.At ⟨2, -1⟩ 1 2 = .ok 0 ∧
    R.At ⟨2, -1⟩ 1 1 = .ok 0 ∧
    Int.emod ((1 : Int) - 1 + (-1)) 2 + 1 = 2 :=
  ⟨rfl, rfl, rfl, by decide⟩

/-- C6, counterexample: the claim says the binary-element check fails iff the
value is negative or has degree ≥ 2.  The polynomial `x` (value 2) is
non-negative and has degree 1 (bit length 2), yet `check01` rejects it. -/
theorem c6_counterexample :
    check01 2 = .error "cannot use polynomial 2 in binary element matrix" ∧
    (0 : Int) ≤ 2 ∧ bitLen (Int.toNat 2) = 2 :=
  ⟨rfl, by decide, by decide⟩

/-- `bitLenAux` is positive whenever both fuel and value are. -/
theorem bitLenAux_pos (f k : Nat) (hf : 1 ≤ f) (hk : 1 ≤ k) :
    1 ≤ bitLenAux f k := by
  match f, k with
  | f + 1, k + 1 => rw [bitLenAux]; omega

/-- Values of two or more have bit length at least two. -/
theorem two_le_bitLen (n : Nat) (h : 2 ≤ n) : 2 ≤ bitLen n := by
  obtain ⟨m, rfl⟩ : ∃ m, n = m + 2 := ⟨n - 2, by omega⟩
  show 2 ≤ bitLenAux (m + 2) (m + 2)
  rw [show bitLenAux (m + 2) (m + 2) = bitLenAux (m + 1) ((m + 2) / 2) + 1
    from rfl]
  have := bitLenAux_pos (m + 1) ((m + 2) / 2) (by omega) (by omega)
  omega

/-- The failure condition of `check01` is exactly "negative or at least 2". -/
theorem check01_cond_iff (p : Int) :
    (sign p < 0 ∨ bitLen p.toNat > 1) ↔ (p < 0 ∨ 2 ≤ p) := by
  constructor
  · rintro (h | h)
    · left
      cases p with
      | ofNat n => cases n <;> simp [sign, Int.sign] at h
      | negSucc n => exact Int.negSucc_lt_zero n
    · by_cases h2 : 2 ≤ p
      · exact Or.inr h2
      · exfalso
        have : p.toNat ≤ 1 := by omega
        interval_cases h' : p.toNat <;> simp [bitLen, bitLenAux] at h
  · rintro (h | h)
    · left
      cases p with
      | ofNat n => exact absurd h (Int.ofNat_nonneg n).not_lt
      | negSucc n => simp [sign, Int.sign]
    · right
      have : 2 ≤ p.toNat := by omega
      have := two_le_bitLen p.toNat this
      omega

/-- C6, amended: `check01` fails iff the polynomial is negative or at least 2
(bit length ≥ 2, i.e. degree ≥ 1 — not degree ≥ 2 as claimed); otherwise the
value itself (its single low bit) is returned. -/
theorem c6_check01_amended (p : Int) :
    ((∃ e, check01 p = .error e) ↔ (p < 0 ∨ 2 ≤ p)) ∧
    (0 ≤ p → p < 2 → check01 p = .ok p.toNat) := by
  constructor
  · by_cases hc : sign p < 0 ∨ bitLen p.toNat > 1
    · rw [check01, if_pos hc]
      exact iff_of_true ⟨_, rfl⟩ ((check01_cond_iff p).mp hc)
    · rw [check01, if_neg hc]
      exact iff_of_false (by simp) (fun h => hc ((check01_cond_iff p).mpr h))
  · intro h0 h2
    have hp : p = 0 ∨ p = 1 := by omega
    rcases hp with h | h <;> subst h <;> rfl

/-- C6, witness for the amended theorem at `p = 1`. -/
theorem c6_check01_amended_witness :
    ((∃ e, check01 1 = .error e) ↔ ((1 : Int) < 0 ∨ 2 ≤ (1 : Int))) ∧
    check01 1 = .ok 1 :=
  ⟨(c6_check01_amended 1).1, (c6_check01_amended 1).2 (by decide) (by decide)⟩

/-- C7, counterexample: the claim quantifies over every kind, including the
polynomial kinds with arbitrary polynomial elements.  For the 1×1
sparse-polynomial matrix whose (1,1) entry is `x²` (heap cell 0 holds 4),
`FMul(A, Eye(1,1))` panics in `check01` instead of succeeding. -/
theorem c7_counterexample :
    Eye 1 1 = .ok ⟨1, 1⟩ ∧
    FMul (M.psm ⟨1, 1, [(0, 0)]⟩) (M.i ⟨1, 1⟩) [(4 : Int)] =
      .error "cannot use polynomial 4 in binary element matrix" :=
  ⟨rfl, rfl⟩

/-- C8, counterexample: the claim says the product with a Zero operand *is a
Zero matrix*.  When the non-Zero operand is sparse, the sparse dispatch wins
instead: multiplying the empty 1×1 `SM` by `Zeros(1,1)` yields an (empty)
`SM`, not a `Z`. -/
theorem c8_counterexample :
    FMul (M.sm ⟨1, 1, []⟩) (M.z ⟨1, 1⟩) [] = .ok (M.sm ⟨1, 1, []⟩) ∧
    M.isZ (M.sm ⟨1, 1, []⟩) = false :=
  ⟨rfl, rfl⟩

/-- C9: multiplying matrices with mismatched inner dimensions fails
immediately with the dimension-mismatch error, before anything else is
examined or produced. -/
theorem c9_fmul_dimension_mismatch (A B : M) (H : Heap)
    (ar ac br bc : Nat) (hA : A.size = (ar, ac)) (hB : B.size = (br, bc))
    (h : ac ≠ br) :
    FMul A B H = .error ("inner dimension mismatch: " ++ toString ar ++ "x" ++
      toString ac ++ " * " ++ toString br ++ "x" ++ toString bc) := by
  simp [FMul, hA, hB, h]

/-- C9, witness: a 2×3 by 2×2 multiplication is rejected. -/
theorem c9_fmul_dimension_mismatch_witness :
    (M.sm ⟨2, 3, []⟩).size = (2, 3) ∧ (M.sm ⟨2, 2, []⟩).size = (2, 2) ∧ 3 ≠ 2 ∧
    FMul (M.sm ⟨2, 3, []⟩) (M.sm ⟨2, 2, []⟩) [] =
      .error ("inner dimension mismatch: " ++ toString 2 ++ "x" ++ toString 3 ++
        " * " ++ toString 2 ++ "x" ++ toString 2) :=
  ⟨rfl, rfl, by decide,
    c9_fmul_dimension_mismatch (M.sm ⟨2, 3, []⟩) (M.sm ⟨2, 2, []⟩) [] 2 3 2 2
      rfl rfl (by decide)⟩

/-- A well-formed matrix has positive dimensions. -/
theorem wf_size_pos (A : M) (h : A.WF) : 1 ≤ A.size.1 ∧ 1 ≤ A.size.2 := by
  cases A <;> simp [M.WF, M.size] at h ⊢ <;> omega

/-- `Zeros` succeeds on positive sizes. -/
theorem zeros_ok (m n : Nat) (hm : 1 ≤ m) (hn : 1 ≤ n) :
    Zeros m n = .ok ⟨m, n⟩ := by
  rw [Zeros, if_neg (by omega)]

/-- `Eye` succeeds on positive sizes. -/
theorem eye_ok (m n : Nat) (hm : 1 ≤ m) (hn : 1 ≤ n) :
    Eye m n = .ok ⟨m, n⟩ := by
  rw [Eye, if_neg (by omega)]

/-- `NewSparse` succeeds on in-range sizes. -/
theorem newSparse_ok (m n : Nat) (hm : 1 ≤ m) (hm' : m ≤ 65535)
    (hn : 1 ≤ n) (hn' : n ≤ 65535) : NewSparse m n = .ok ⟨m, n, []⟩ := by
  rw [NewSparse, if_neg (by omega), if_neg (by omega)]

/-- `NewFull` succeeds on in-range sizes. -/
theorem newFull_ok (m n : Nat) (hm : 1 ≤ m) (hm' : m ≤ 65535)
    (hn : 1 ≤ n) (hn' : n ≤ 65535) :
    NewFull m n = .ok ⟨m, n, natSetBit 0 (m * n) 1⟩ := by
  rw [NewFull, if_neg (by omega), if_neg (by omega)]

/-- C8, amended: with a Zero operand (and the other operand
binary-compatible), `FMul` succeeds and returns an all-zero matrix of the
correct output size.  The result is the structural Zero matrix, except when
the *left* operand is sparse (`SM` or `PSM`) and the right operand is the
Zero matrix: then the sparse dispatch wins and the result is an empty
sparse-binary `SM` — a path that allocates the output sparse matrix and so
additionally requires the output column count to be within the 65535
storage limit. -/
theorem c8_fmul_zero_amended (A B : M) (H : Heap) (m k n : Nat)
    (hWA : A.WF) (hWB : B.WF)
    (hA : A.size = (m, k)) (hB : B.size = (k, n))
    (hz : (A.isZ = true ∧ binaryElems B H) ∨ (B.isZ = true ∧ binaryElems A H))
    (hlim : A.isSparseKind = true → B.isZ = true → n ≤ 65535) :
    ∃ C, FMul A B H = .ok C ∧ C.size = (m, n) ∧
      (∀ r c, 1 ≤ r → r ≤ m → 1 ≤ c → c ≤ n → elemVal C H r c = 0) ∧
      ((A.isSparseKind = true ∧ B.isZ = true) → C = M.sm ⟨m, n, []⟩) ∧
      (¬(A.isSparseKind = true ∧ B.isZ = true) → C = M.z ⟨m, n⟩) := by
  have hm1 : 1 ≤ m := by
    have := wf_size_pos A hWA
    rw [hA] at this
    exact this.1
  have hn1 : 1 ≤ n := by
    have := wf_size_pos B hWB
    rw [hB] at this
    exact this.2
  have hzero : (Zeros m n).map M.z = .ok (M.z ⟨m, n⟩) := by
    rw [zeros_ok m n hm1 hn1]
    rfl
  rcases hz with ⟨hza, _⟩ | ⟨hzb, _⟩
  · -- A is the Zero matrix: the very first dispatch case returns `Zeros`,
    -- whatever kind B is.
    cases A with
    | z za =>
      obtain ⟨zar, zac⟩ := za
      simp only [M.size, Prod.mk.injEq] at hA
      obtain ⟨h1, h2⟩ := hA
      rcases h1.symm with rfl
      rcases h2.symm with rfl
      refine ⟨M.z ⟨m, n⟩, ?_, rfl, fun _ _ _ _ _ _ => rfl,
        fun h => by simp [M.isSparseKind] at h, fun _ => rfl⟩
      rw [FMul, hB]
      simp only [M.size, if_neg (show ¬ k ≠ k from fun h => h rfl)]
      exact hzero
    | sm x => simp [M.isZ] at hza
    | fm x => simp [M.isZ] at hza
    | psm x => simp [M.isZ] at hza
    | pfm x => simp [M.isZ] at hza
    | i x => simp [M.isZ] at hza
    | r x => simp [M.isZ] at hza
    | s x => simp [M.isZ] at hza
  · -- B is the Zero matrix.
    cases B with
    | z zb =>
      obtain ⟨zbr, zbc⟩ := zb
      simp only [M.size, Prod.mk.injEq] at hB
      obtain ⟨hb1, hb2⟩ := hB
      rcases hb1.symm with rfl
      rcases hb2.symm with rfl
      cases A with
      | z za =>
        obtain ⟨zar, zac⟩ := za
        simp only [M.size, Prod.mk.injEq] at hA
        obtain ⟨h1, h2⟩ := hA
        rcases h1.symm with rfl
        rcases h2.symm with rfl
        refine ⟨M.z ⟨m, n⟩, ?_, rfl, fun _ _ _ _ _ _ => rfl,
          fun h => by simp [M.isSparseKind] at h, fun _ => rfl⟩
        rw [FMul]
        simp only [M.size, if_neg (show ¬ k ≠ k from fun h => h rfl)]
        exact hzero
      | sm x =>
        obtain ⟨xr, xc, xv⟩ := x
        simp only [M.size, Prod.mk.injEq] at hA
        obtain ⟨h1, h2⟩ := hA
        rcases h1.symm with rfl
        rcases h2.symm with rfl
        obtain ⟨-, hm65, -, -, -, -⟩ := hWA
        have hn65 : n ≤ 65535 := hlim rfl rfl
        refine ⟨M.sm ⟨m, n, []⟩, ?_, rfl, fun _ _ _ _ _ _ => rfl,
          fun _ => rfl, fun hcon => absurd ⟨rfl, rfl⟩ hcon⟩
        rw [FMul]
        simp only [M.size, if_neg (show ¬ k ≠ k from fun h => h rfl)]
        have h0 : fMulSX ⟨m, k, xv⟩ (M.z ⟨k, n⟩) H
            = (NewSparse m n).bind (fun C0 : SM => .ok ⟨m, n, C0.v⟩) := rfl
        rw [h0, newSparse_ok m n hm1 hm65 hn1 hn65]
        rfl
      | psm x =>
        obtain ⟨xr, xc, xv⟩ := x
        simp only [M.size, Prod.mk.injEq] at hA
        obtain ⟨h1, h2⟩ := hA
        rcases h1.symm with rfl
        rcases h2.symm with rfl
        obtain ⟨-, hm65, -, -, -, -⟩ := hWA
        have hn65 : n ≤ 65535 := hlim rfl rfl
        refine ⟨M.sm ⟨m, n, []⟩, ?_, rfl, fun _ _ _ _ _ _ => rfl,
          fun _ => rfl, fun hcon => absurd ⟨rfl, rfl⟩ hcon⟩
        rw [FMul]
        simp only [M.size, if_neg (show ¬ k ≠ k from fun h => h rfl)]
        have h0 : fMulPSX ⟨m, k, xv⟩ (M.z ⟨k, n⟩) H
            = (NewSparse m n).bind (fun C0 : SM => .ok ⟨m, n, C0.v⟩) := rfl
        rw [h0, newSparse_ok m n hm1 hm65 hn1 hn65]
        rfl
      | fm x =>
        obtain ⟨xr, xc, xv⟩ := x
        simp only [M.size, Prod.mk.injEq] at hA
        obtain ⟨h1, h2⟩ := hA
        rcases h1.symm with rfl
        rcases h2.symm with rfl
        refine ⟨M.z ⟨m, n⟩, ?_, rfl, fun _ _ _ _ _ _ => rfl,
          fun h => by simp [M.isSparseKind] at h, fun _ => rfl⟩
        rw [FMul]
        simp only [M.size, if_neg (show ¬ k ≠ k from fun h => h rfl)]
        rw [fMul2]
        exact hzero
      | pfm x =>
        obtain ⟨xr, xc, xv⟩ := x
        simp only [M.size, Prod.mk.injEq] at hA
        obtain ⟨h1, h2⟩ := hA
        rcases h1.symm with rfl
        rcases h2.symm with rfl
        refine ⟨M.z ⟨m, n⟩, ?_, rfl, fun _ _ _ _ _ _ => rfl,
          fun h => by simp [M.isSparseKind] at h, fun _ => rfl⟩
        rw [FMul]
        simp only [M.size, if_neg (show ¬ k ≠ k from fun h => h rfl)]
        rw [fMul2]
        exact hzero
      | i x =>
        obtain ⟨xr, xc⟩ := x
        simp only [M.size, Prod.mk.injEq] at hA
        obtain ⟨h1, h2⟩ := hA
        rcases h1.symm with rfl
        rcases h2.symm with rfl
        refine ⟨M.z ⟨m, n⟩, ?_, rfl, fun _ _ _ _ _ _ => rfl,
          fun h => by simp [M.isSparseKind] at h, fun _ => rfl⟩
        rw [FMul]
        simp only [M.size, if_neg (show ¬ k ≠ k from fun h => h rfl)]
        rw [fMul2]
        exact hzero
      | r x =>
        obtain ⟨xs, xn⟩ := x
        simp only [M.size, Prod.mk.injEq] at hA
        obtain ⟨h1, h2⟩ := hA
        rcases h1.symm with rfl
        rcases h2 with rfl
        refine ⟨M.z ⟨m, n⟩, ?_, rfl, fun _ _ _ _ _ _ => rfl,
          fun h => by simp [M.isSparseKind] at h, fun _ => rfl⟩
        rw [FMul]
        simp only [M.size, if_neg (show ¬ m ≠ m from fun h => h rfl)]
        rw [fMul2]
        exact hzero
      | s x =>
        obtain ⟨xs, xn⟩ := x
        simp only [M.size, Prod.mk.injEq] at hA
        obtain ⟨h1, h2⟩ := hA
        rcases h1.symm with rfl
        rcases h2 with rfl
        refine ⟨M.z ⟨m, n⟩, ?_, rfl, fun _ _ _ _ _ _ => rfl,
          fun h => by simp [M.isSparseKind] at h, fun _ => rfl⟩
        rw [FMul]
        simp only [M.size, if_neg (show ¬ m ≠ m from fun h => h rfl)]
        rw [fMul2]
        exact hzero
    | sm x => simp [M.isZ] at hzb
    | fm x => simp [M.isZ] at hzb
    | psm x => simp [M.isZ] at hzb
    | pfm x => simp [M.isZ] at hzb
    | i x => simp [M.isZ] at hzb
    | r x => simp [M.isZ] at hzb
    | s x => simp [M.isZ] at hzb

/-- C8, witness: the empty 1×1 sparse matrix times `Zeros(1,1)`, hitting the
sparse-left exception. -/
theorem c8_fmul_zero_amended_witness :
    (M.sm ⟨1, 1, []⟩).WF ∧ (M.z ⟨1, 1⟩).WF ∧
    ((M.sm ⟨1, 1, []⟩).isZ = true ∧ binaryElems (M.z ⟨1, 1⟩) [] ∨
      ((M.z ⟨1, 1⟩).isZ = true ∧ binaryElems (M.sm ⟨1, 1, []⟩) [])) ∧
    ((M.sm ⟨1, 1, []⟩).isSparseKind = true → (M.z ⟨1, 1⟩).isZ = true →
      (1 : Nat) ≤ 65535) ∧
    (∃ C, FMul (M.sm ⟨1, 1, []⟩) (M.z ⟨1, 1⟩) [] = .ok C ∧ C.size = (1, 1) ∧
      (∀ r c, 1 ≤ r → r ≤ 1 → 1 ≤ c → c ≤ 1 → elemVal C [] r c = 0) ∧
      (((M.sm ⟨1, 1, []⟩).isSparseKind = true ∧ (M.z ⟨1, 1⟩).isZ = true) →
        C = M.sm ⟨1, 1, []⟩) ∧
      (¬((M.sm ⟨1, 1, []⟩).isSparseKind = true ∧ (M.z ⟨1, 1⟩).isZ = true) →
        C = M.z ⟨1, 1⟩)) := by
  have hwa : (M.sm ⟨1, 1, []⟩).WF := by
    refine ⟨by norm_num, by norm_num, by norm_num, by norm_num,
      List.nodup_nil, ?_⟩
    intro kv hkv
    exact absurd hkv (List.not_mem_nil kv)
  have hwb : (M.z ⟨1, 1⟩).WF := ⟨le_refl 1, le_refl 1⟩
  have hbin : binaryElems (M.sm ⟨1, 1, []⟩) [] := by
    intro r c _ _ _ _
    by_cases h : mget [] ((c - 1) * 65536 + (r - 1)) ≠ 0 <;> simp [elemVal, h]
  have hz : (M.sm ⟨1, 1, []⟩).isZ = true ∧ binaryElems (M.z ⟨1, 1⟩) [] ∨
      ((M.z ⟨1, 1⟩).isZ = true ∧ binaryElems (M.sm ⟨1, 1, []⟩) []) :=
    Or.inr ⟨rfl, hbin⟩
  exact ⟨hwa, hwb, hz, fun _ _ => by norm_num,
    c8_fmul_zero_amended (M.sm ⟨1, 1, []⟩) (M.z ⟨1, 1⟩) [] 1 1 1 hwa hwb
      rfl rfl hz (fun _ _ => by norm_num)⟩

/-- Whether a matrix is one of the reference-free kinds a multiplication can
produce (sparse-binary, full-binary, Zero, Identity). -/
def M.isBinKind : M → Bool
  | .sm _ => true
  | .fm _ => true
  | .z _ => true
  | .i _ => true
  | _ => false

/-- Inversion for `Except.map` succeeding. -/
theorem except_map_ok {α β : Type} (f : α → β) (e : Except String α) (c : β)
    (h : e.map f = .ok c) : ∃ b, e = .ok b ∧ c = f b := by
  cases e with
  | error msg => simp [Except.map] at h
  | ok b => exact ⟨b, rfl, by simpa [Except.map] using h.symm⟩

/-- Inversion for `Except` bind succeeding. -/
theorem except_bind_ok {α β : Type} (e : Except String α)
    (f : α → Except String β) (b : β) (h : e >>= f = .ok b) :
    ∃ a, e = .ok a ∧ f a = .ok b := by
  cases e with
  | error msg => exact absurd h (by simp [Bind.bind, Except.bind])
  | ok a => exact ⟨a, rfl, by simpa [Bind.bind, Except.bind] using h⟩

/-- Whatever the operands, a successful `FMul` only ever returns a matrix of
kind `SM`, `FM`, `Z` or `I` — never a polynomial kind. -/
theorem fmul_ok_kind (A B : M) (H : Heap) (C : M)
    (h : FMul A B H = .ok C) : C.isBinKind = true := by
  rw [FMul] at h
  rcases hsa : A.size with ⟨ar, ac⟩
  rw [hsa] at h
  rcases hsb : B.size with ⟨br, bc⟩
  rw [hsb] at h
  dsimp only at h
  by_cases hd : ac ≠ br
  · rw [if_pos hd] at h; cases h
  · rw [if_neg hd] at h
    cases A with
    | z za => obtain ⟨x, _, rfl⟩ := except_map_ok _ _ _ h; rfl
    | sm xa => obtain ⟨x, _, rfl⟩ := except_map_ok _ _ _ h; rfl
    | psm xa => obtain ⟨x, _, rfl⟩ := except_map_ok _ _ _ h; rfl
    | i xa =>
      cases B <;> (obtain ⟨x, _, rfl⟩ := except_map_ok _ _ _ h; rfl)
    | fm xa =>
      cases B <;> (obtain ⟨x, _, rfl⟩ := except_map_ok _ _ _ h; rfl)
    | pfm xa =>
      cases B <;> (obtain ⟨x, _, rfl⟩ := except_map_ok _ _ _ h; rfl)
    | r xa =>
      cases B <;> (obtain ⟨x, _, rfl⟩ := except_map_ok _ _ _ h; rfl)
    | s xa =>
      cases B <;> (obtain ⟨x, _, rfl⟩ := except_map_ok _ _ _ h; rfl)

/-- A reference-free-kind matrix holds no heap addresses. -/
theorem binKind_addrs (C : M) (hC : C.isBinKind = true) : C.addrs = [] := by
  cases C <;> first | rfl | (simp [M.isBinKind] at hC)

/-- Reading a reference-free-kind matrix does not consult the heap. -/
theorem binKind_at_heap_indep (C : M) (hC : C.isBinKind = true)
    (H₁ H₂ : Heap) (r c : Nat) : M.At C H₁ r c = M.At C H₂ r c := by
  cases C <;> first | rfl | (simp [M.isBinKind] at hC)

/-- Mutating a reference-free-kind matrix never changes the heap (the binary
kinds store bits in their own structure; the structural kinds reject the
mutation). -/
theorem binKind_mut_heap_const (C : M) (hC : C.isBinKind = true)
    (op : Mut) (H : Heap) (r c p : Nat) (C' : M) (H' : Heap)
    (h : op.apply C H r c p = .ok (C', H')) : H' = H := by
  cases C with
  | sm x =>
    cases op with
    | set =>
      obtain ⟨y, _, hok⟩ := except_bind_ok _ _ _ h
      have := hok
      simp only [pure, Except.pure, Except.ok.injEq, Prod.mk.injEq] at this
      exact this.2.symm
    | add =>
      obtain ⟨y, _, hok⟩ := except_bind_ok _ _ _ h
      have := hok
      simp only [pure, Except.pure, Except.ok.injEq, Prod.mk.injEq] at this
      exact this.2.symm
    | mul =>
      obtain ⟨y, _, hok⟩ := except_bind_ok _ _ _ h
      have := hok
      simp only [pure, Except.pure, Except.ok.injEq, Prod.mk.injEq] at this
      exact this.2.symm
  | fm x =>
    cases op with
    | set =>
      obtain ⟨y, _, hok⟩ := except_bind_ok _ _ _ h
      have := hok
      simp only [pure, Except.pure, Except.ok.injEq, Prod.mk.injEq] at this
      exact this.2.symm
    | add =>
      obtain ⟨y, _, hok⟩ := except_bind_ok _ _ _ h
      have := hok
      simp only [pure, Except.pure, Except.ok.injEq, Prod.mk.injEq] at this
      exact this.2.symm
    | mul =>
      obtain ⟨y, _, hok⟩ := except_bind_ok _ _ _ h
      have := hok
      simp only [pure, Except.pure, Except.ok.injEq, Prod.mk.injEq] at this
      exact this.2.symm
  | z x => cases op <;> cases h
  | i x => cases op <;> cases h
  | psm x => simp [M.isBinKind] at hC
  | pfm x => simp [M.isBinKind] at hC
  | r x => simp [M.isBinKind] at hC
  | s x => simp [M.isBinKind] at hC

/-- C10: a successful product shares no mutable storage with its operands.
The result holds no `*big.Int` references at all, mutating it leaves the
heap — and hence every element of `A` and `B` — untouched, and mutating `A`
or `B` (which can rewrite heap cells) cannot change any element the result
reports. -/
theorem c10_fmul_no_shared_storage (A B : M) (H : Heap) (C : M)
    (h : FMul A B H = .ok C) :
    C.addrs = [] ∧
    (∀ (op : Mut) (r c p : Nat) (C' : M) (H' : Heap),
      op.apply C H r c p = .ok (C', H') →
      H' = H ∧ (∀ r' c', M.At A H' r' c' = M.At A H r' c') ∧
        (∀ r' c', M.At B H' r' c' = M.At B H r' c')) ∧
    (∀ (op : Mut) (r c p : Nat) (A' : M) (H₂ : Heap),
      op.apply A H r c p = .ok (A', H₂) →
      ∀ r' c', M.At C H₂ r' c' = M.At C H r' c') ∧
    (∀ (op : Mut) (r c p : Nat) (B' : M) (H₂ : Heap),
      op.apply B H r c p = .ok (B', H₂) →
      ∀ r' c', M.At C H₂ r' c' = M.At C H r' c') := by
  have hk := fmul_ok_kind A B H C h
  refine ⟨binKind_addrs C hk, ?_, ?_, ?_⟩
  · intro op r c p C' H' hmut
    have hH : H' = H := binKind_mut_heap_const C hk op H r c p C' H' hmut
    exact ⟨hH, fun r' c' => by rw [hH], fun r' c' => by rw [hH]⟩
  · intro op r c p A' H₂ _ r' c'
    exact binKind_at_heap_indep C hk H₂ H r' c'
  · intro op r c p B' H₂ _ r' c'
    exact binKind_at_heap_indep C hk H₂ H r' c'

/-- C10, witness: the 1×1 sparse-by-sparse product, with a concrete `SetAt`
on the result. -/
theorem c10_fmul_no_shared_storage_witness :
    FMul (M.sm ⟨1, 1, [(0, 1)]⟩) (M.sm ⟨1, 1, [(0, 1)]⟩) [] =
      .ok (M.sm ⟨1, 1, [(0, 1)]⟩) ∧
    (M.sm ⟨1, 1, [(0, 1)]⟩).addrs = [] ∧
    (∀ (op : Mut) (r c p : Nat) (C' : M) (H' : Heap),
      op.apply (M.sm ⟨1, 1, [(0, 1)]⟩) [] r c p = .ok (C', H') →
      H' = [] ∧ (∀ r' c', M.At (M.sm ⟨1, 1, [(0, 1)]⟩) H' r' c' =
          M.At (M.sm ⟨1, 1, [(0, 1)]⟩) [] r' c') ∧
        (∀ r' c', M.At (M.sm ⟨1, 1, [(0, 1)]⟩) H' r' c' =
          M.At (M.sm ⟨1, 1, [(0, 1)]⟩) [] r' c')) ∧
    (∀ (op : Mut) (r c p : Nat) (A' : M) (H₂ : Heap),
      op.apply (M.sm ⟨1, 1, [(0, 1)]⟩) [] r c p = .ok (A', H₂) →
      ∀ r' c', M.At (M.sm ⟨1, 1, [(0, 1)]⟩) H₂ r' c' =
        M.At (M.sm ⟨1, 1, [(0, 1)]⟩) [] r' c') ∧
    (∀ (op : Mut) (r c p : Nat) (B' : M) (H₂ : Heap),
      op.apply (M.sm ⟨1, 1, [(0, 1)]⟩) [] r c p = .ok (B', H₂) →
      ∀ r' c', M.At (M.sm ⟨1, 1, [(0, 1)]⟩) H₂ r' c' =
        M.At (M.sm ⟨1, 1, [(0, 1)]⟩) [] r' c') :=
  ⟨rfl, c10_fmul_no_shared_storage (M.sm ⟨1, 1, [(0, 1)]⟩)
    (M.sm ⟨1, 1, [(0, 1)]⟩) [] (M.sm ⟨1, 1, [(0, 1)]⟩) rfl⟩

/-! ### Association-list and bit-vector lemmas -/

theorem mfind_eq_none {α : Type} (l : List (Nat × α)) (q : Nat)
    (h : q ∉ mkeys l) : mfind l q = none := by
  induction l with
  | nil => rfl
  | cons kv t ih =>
    rw [mfind]
    rw [mkeys, List.map_cons, List.mem_cons] at h
    rw [if_neg (fun he => h (Or.inl he.symm))]
    exact ih (fun ht => h (Or.inr ht))

theorem mfind_of_mem_nodup {α : Type} (l : List (Nat × α)) (k : Nat) (v : α)
    (hmem : (k, v) ∈ l) (hnd : (mkeys l).Nodup) : mfind l k = some v := by
  induction l with
  | nil => cases hmem
  | cons kv t ih =>
    rw [mkeys, List.map_cons, List.nodup_cons] at hnd
    rcases List.mem_cons.mp hmem with h | h
    · rw [← h, mfind, if_pos rfl]
    · rw [mfind]
      split
      · rename_i he
        exact absurd (he ▸ List.mem_map_of_mem Prod.fst h) hnd.1
      · exact ih h hnd.2

theorem mfind_mset_self {α : Type} (l : List (Nat × α)) (k : Nat) (v : α) :
    mfind (mset l k v) k = some v := by
  induction l with
  | nil => simp [mset, mfind]
  | cons kv t ih =>
    rw [mset]
    by_cases h : kv.1 = k
    · rw [if_pos h, mfind, if_pos h]
    · rw [if_neg h, mfind, if_neg h]
      exact ih

theorem mfind_mset_ne {α : Type} (l : List (Nat × α)) (k q : Nat) (v : α)
    (h : q ≠ k) : mfind (mset l k v) q = mfind l q := by
  induction l with
  | nil =>
    show (if k = q then some v else (none : Option α)) = none
    rw [if_neg (fun he => h he.symm)]
  | cons kv t ih =>
    rw [mset]
    by_cases hk : kv.1 = k
    · rw [if_pos hk]
      have hne : ¬ kv.1 = q := fun he => h (he.symm.trans hk)
      rw [mfind, mfind, if_neg hne, if_neg hne]
    · rw [if_neg hk, mfind, mfind]
      by_cases he : kv.1 = q
      · rw [if_pos he, if_pos he]
      · rw [if_neg he, if_neg he]
        exact ih

theorem mget_mset_self (l : List (Nat × Nat)) (k v : Nat) :
    mget (mset l k v) k = v := by
  rw [mget, mfind_mset_self]
  rfl

theorem mget_mset_ne (l : List (Nat × Nat)) (k q v : Nat) (h : q ≠ k) :
    mget (mset l k v) q = mget l q := by
  rw [mget, mfind_mset_ne l k q v h, mget]

/-- Characterisation of the "mark entries satisfying `P` with a 1" fold used
by the identity fast paths of the sparse multiplications. -/
theorem fold_mark_mget (l : List (Nat × Nat)) (P : Nat × Nat → Prop)
    [DecidablePred P] (acc0 : List (Nat × Nat)) (hnd : (mkeys l).Nodup)
    (q : Nat) :
    mget (l.foldl (fun acc ja => if P ja then mset acc ja.1 1 else acc) acc0) q
      = match mfind l q with
        | some a => if P (q, a) then 1 else mget acc0 q
        | none => mget acc0 q := by
  induction l generalizing acc0 with
  | nil => rfl
  | cons kv t ih =>
    obtain ⟨k0, a0⟩ := kv
    rw [mkeys, List.map_cons, List.nodup_cons] at hnd
    rw [List.foldl_cons, mfind]
    by_cases hq : k0 = q
    · subst hq
      rw [if_pos rfl]
      dsimp only
      rw [ih _ hnd.2, mfind_eq_none t k0 hnd.1]
      dsimp only
      by_cases hP : P (k0, a0)
      · rw [if_pos hP, if_pos hP, mget_mset_self]
      · rw [if_neg hP, if_neg hP]
    · rw [if_neg hq, ih _ hnd.2]
      have hacc : mget (if P (k0, a0) then mset acc0 (k0, a0).1 1 else acc0) q
          = mget acc0 q := by
        split
        · exact mget_mset_ne acc0 k0 q 1 (fun he => hq he.symm)
        · rfl
      cases hf : mfind t q with
      | some a =>
        dsimp only
        split
        · rfl
        · exact hacc
      | none =>
        dsimp only
        exact hacc

/-- A fold in the `Except` monad whose body never fails equals the pure
fold. -/
theorem foldlM_except_pure {α σ : Type} (l : List α) (g : σ → α → σ)
    (f : σ → α → Except String σ)
    (hf : ∀ s a, a ∈ l → f s a = .ok (g s a)) (s0 : σ) :
    l.foldlM f s0 = .ok (l.foldl g s0) := by
  induction l generalizing s0 with
  | nil => rfl
  | cons a t ih =>
    rw [List.foldlM_cons, hf s0 a (List.mem_cons_self a t), List.foldl_cons]
    exact ih (fun s b hb => hf s b (List.mem_cons_of_mem a hb)) (g s0 a)

/-- Membership in a 1-based loop range. -/
theorem mem_range1 (n i : Nat) : i ∈ range1 n ↔ 1 ≤ i ∧ i ≤ n := by
  rw [range1, List.mem_map]
  constructor
  · rintro ⟨j, hj, rfl⟩
    rw [List.mem_range] at hj
    omega
  · rintro ⟨h1, h2⟩
    exact ⟨i - 1, List.mem_range.mpr (by omega), by omega⟩

/-- 1-based loop ranges visit distinct indices. -/
theorem range1_nodup (n : Nat) : (range1 n).Nodup :=
  (List.nodup_range n).map (fun _ _ h => by omega)

/-- An XOR-accumulation of terms masked by an `i = c` test over indices
avoiding `c` is the identity. -/
theorem foldl_xor_delta_absent (l : List Nat) (c : Nat) (hc : c ∉ l)
    (g : Nat → Nat) (d0 : Nat) :
    l.foldl (fun d i => d ^^^ (g i &&& (if i = c then 1 else 0))) d0 = d0 := by
  induction l generalizing d0 with
  | nil => rfl
  | cons j t ih =>
    rw [List.foldl_cons,
      if_neg (show ¬ j = c from fun he => hc (he ▸ List.mem_cons_self j t)),
      Nat.and_zero, Nat.xor_zero]
    exact ih (fun h => hc (List.mem_cons_of_mem j h)) d0

/-- An XOR-accumulation whose terms are masked by an `i = c` test collapses
to the single term at `c`. -/
theorem foldl_xor_delta (l : List Nat) (hnd : l.Nodup) (c : Nat) (hc : c ∈ l)
    (g : Nat → Nat) (hg : g c = 0 ∨ g c = 1) (d0 : Nat) :
    l.foldl (fun d i => d ^^^ (g i &&& (if i = c then 1 else 0))) d0
      = d0 ^^^ g c := by
  induction l generalizing d0 with
  | nil => cases hc
  | cons i0 t ih =>
    rw [List.nodup_cons] at hnd
    rw [List.foldl_cons]
    by_cases h0 : i0 = c
    · subst h0
      rw [if_pos rfl]
      have hterm : g i0 &&& 1 = g i0 := by
        rcases hg with h | h <;> rw [h] <;> rfl
      rw [hterm]
      exact foldl_xor_delta_absent t i0 hnd.1 g _
    · rw [if_neg h0, Nat.and_zero, Nat.xor_zero]
      exact ih hnd.2 ((List.mem_cons.mp hc).resolve_left
        (fun he => h0 he.symm)) d0

/-- Writing bit `k` and reading bit `j` of a packed vector. -/
theorem natSetBit_testBit (v k b j : Nat) (hb : b = 0 ∨ b = 1) :
    (natSetBit v k b).testBit j =
      if j = k then decide (b = 1) else v.testBit j := by
  rcases hb with hb | hb <;> subst hb
  · rw [natSetBit, if_neg (by simp)]
    by_cases hk : v.testBit k
    · rw [if_pos hk]
      by_cases hj : j = k
      · subst hj
        rw [if_pos rfl, Nat.testBit_xor, Nat.testBit_two_pow]
        simp [hk]
      · rw [if_neg hj, Nat.testBit_xor, Nat.testBit_two_pow]
        simp [show ¬ (k = j) from fun h => hj h.symm]
    · rw [if_neg hk]
      by_cases hj : j = k
      · subst hj
        rw [if_pos rfl]
        simp [hk]
      · rw [if_neg hj]
  · rw [natSetBit, if_pos (by simp)]
    rw [Nat.testBit_lor, Nat.testBit_two_pow]
    by_cases hj : j = k
    · subst hj
      simp
    · simp [hj, show ¬ (k = j) from fun h => hj h.symm]

/-! ### Evaluation lemmas for the multiplication engine -/

theorem ok_bind {α β : Type} (a : α) (f : α → Except String β) :
    (Except.ok a >>= f) = f a := rfl

theorem check01_of01 (p : Int) (h : p = 0 ∨ p = 1) :
    check01 p = .ok p.toNat := by
  rcases h with h | h <;> subst h <;> rfl

theorem check01_to01_decide (P : Prop) [Decidable P] :
    check01 (to01 (decide P)) = .ok (if P then 1 else 0) := by
  by_cases h : P
  · rw [if_pos h, decide_eq_true h]
    rfl
  · rw [if_neg h, decide_eq_false h]
    rfl

theorem to01_decide (P : Prop) [Decidable P] :
    to01 (decide P) = if P then 1 else 0 := by
  by_cases h : P <;> simp [to01, h, oneP, zeroP]

theorem list_get?_lt {α : Type} (l : List α) (n : Nat) (h : n < l.length) :
    ∃ a, l.get? n = some a := by
  induction l generalizing n with
  | nil => simp at h
  | cons x t ih =>
    cases n with
    | zero => exact ⟨x, rfl⟩
    | succ n => exact ih n (by simpa using h)

theorem list_getD_of_get? {α : Type} (l : List α) (n : Nat) (d a : α)
    (h : l.get? n = some a) : l.getD n d = a := by
  induction l generalizing n with
  | nil => cases h
  | cons x t ih =>
    cases n with
    | zero => simp at h; simp [List.getD, h]
    | succ n =>
      rw [List.getD_cons_succ]
      exact ih n (by simpa using h)

/-- A fold in the `Except` monad whose body never fails on states satisfying
an invariant equals the pure fold. -/
theorem foldlM_except_pure_inv {α σ : Type} (l : List α) (Q : σ → Prop)
    (g : σ → α → σ) (f : σ → α → Except String σ) :
    ∀ s0 : σ, Q s0 →
    (∀ s a, Q s → a ∈ l → f s a = .ok (g s a)) →
    (∀ s a, Q s → Q (g s a)) →
    l.foldlM f s0 = .ok (l.foldl g s0) := by
  induction l with
  | nil => intro s0 _ _ _; rfl
  | cons a t ih =>
    intro s0 h0 hf hg
    rw [List.foldlM_cons, hf s0 a h0 (List.mem_cons_self a t), ok_bind,
      List.foldl_cons]
    exact ih (g s0 a) (hg s0 a h0)
      (fun s b hs hb => hf s b hs (List.mem_cons_of_mem a hb)) hg

/-- In-bounds `At` on the identity matrix. -/
theorem i_at_ok (x : I) (H : Heap) (r c : Nat) (h1 : 1 ≤ r) (h2 : r ≤ x.r)
    (h3 : 1 ≤ c) (h4 : c ≤ x.c) :
    M.At (M.i x) H r c = .ok (to01 (decide (r = c)), M.i x) := by
  have hx : I.At x r c = .ok (to01 (decide (r = c))) := by
    rw [I.At, if_neg (by omega)]
  have h0 : M.At (M.i x) H r c
      = (I.At x r c) >>= (fun p => pure (p, M.i x)) := rfl
  rw [h0, hx, ok_bind]
  rfl

/-- In-bounds `At` on a well-formed dense polynomial matrix returns the
stored element's value. -/
theorem pfm_at_ok (x : PFM) (H : Heap) (r c : Nat)
    (hlen : x.v.length = x.r * x.c) (h1 : 1 ≤ r) (h2 : r ≤ x.r)
    (h3 : 1 ≤ c) (h4 : c ≤ x.c) :
    M.At (M.pfm x) H r c = .ok (elemVal (M.pfm x) H r c, M.pfm x) := by
  have hidx : (c - 1) * x.r + (r - 1) < x.v.length := by
    rw [hlen]
    calc (c - 1) * x.r + (r - 1) < (c - 1) * x.r + x.r := by omega
      _ = (c - 1 + 1) * x.r := by ring
      _ ≤ x.c * x.r := Nat.mul_le_mul_right _ (by omega)
      _ = x.r * x.c := Nat.mul_comm _ _
  obtain ⟨a, ha⟩ := list_get?_lt x.v ((c - 1) * x.r + (r - 1)) hidx
  have hix : PFM.index x r c = .ok ((c - 1) * x.r + (r - 1)) := by
    rw [PFM.index, if_neg (by omega), if_neg (by omega)]
  have hb : PFM.At x H r c = (PFM.index x r c) >>=
      (fun kk => match x.v.get? kk with
        | some q => pure (H.get q)
        | none => .error "runtime error: index out of range") := rfl
  have hval : elemVal (M.pfm x) H r c = H.get a := by
    rw [elemVal, list_getD_of_get? x.v _ 0 a ha]
  have h0 : M.At (M.pfm x) H r c
      = (PFM.At x H r c) >>= (fun p => pure (p, M.pfm x)) := rfl
  rw [h0, hb, hix, ok_bind, ha]
  rw [hval]
  rfl

/-- In-bounds `At` on the rotation matrix returns its closed-form value
(as the code computes it). -/
theorem r_at_ok (x : R) (H : Heap) (r c : Nat) (h1 : 1 ≤ r) (h2 : r ≤ x.s)
    (h3 : 1 ≤ c) (h4 : c ≤ x.s) :
    M.At (M.r x) H r c = .ok (elemVal (M.r x) H r c, M.r x) := by
  have hx : R.At x r c = .ok (elemVal (M.r x) H r c) := by
    rw [R.At, if_neg (by omega), elemVal]
    dsimp only
    rw [to01_decide]
  have h0 : M.At (M.r x) H r c
      = (R.At x r c) >>= (fun p => pure (p, M.r x)) := rfl
  rw [h0, hx, ok_bind]
  rfl

/-- In-bounds `At` on the shift matrix returns its closed-form value. -/
theorem s_at_ok (x : S) (H : Heap) (r c : Nat) (h1 : 1 ≤ r) (h2 : r ≤ x.s)
    (h3 : 1 ≤ c) (h4 : c ≤ x.s) :
    M.At (M.s x) H r c = .ok (elemVal (M.s x) H r c, M.s x) := by
  have hx : S.At x r c = .ok (elemVal (M.s x) H r c) := by
    rw [S.At, if_neg (by omega), elemVal]
    rw [to01_decide]
  have h0 : M.At (M.s x) H r c
      = (S.At x r c) >>= (fun p => pure (p, M.s x)) := rfl
  rw [h0, hx, ok_bind]
  rfl

section FMulFullIdentity

variable (A : M) (H : Heap) (m k : Nat) (f : Nat → Nat → Int)

/-- One inner step of the triple loop against the identity right operand. -/
theorem fmfInner_ok
    (hAt : ∀ r i, 1 ≤ r → r ≤ m → 1 ≤ i → i ≤ k → M.At A H r i = .ok (f r i, A))
    (hf01 : ∀ r i, 1 ≤ r → r ≤ m → 1 ≤ i → i ≤ k → f r i = 0 ∨ f r i = 1)
    (r c i : Nat) (hr1 : 1 ≤ r) (hr2 : r ≤ m) (hc1 : 1 ≤ c) (hc2 : c ≤ k)
    (hi1 : 1 ≤ i) (hi2 : i ≤ k) (d : Nat) :
    fmfInner H r c (d, A, M.i ⟨k, k⟩) i
      = .ok (d ^^^ ((f r i).toNat &&& (if i = c then 1 else 0)), A, M.i ⟨k, k⟩) := by
  rw [fmfInner]
  dsimp only
  rw [hAt r i hr1 hr2 hi1 hi2, ok_bind]
  dsimp only
  rw [check01_of01 _ (hf01 r i hr1 hr2 hi1 hi2), ok_bind]
  rw [i_at_ok ⟨k, k⟩ H i c hi1 hi2 hc1 hc2, ok_bind]
  dsimp only
  rw [check01_to01_decide, ok_bind]
  rfl

/-- The inner XOR loop against the identity collapses to the single term at
the output column. -/
theorem fmfInner_fold
    (hAt : ∀ r i, 1 ≤ r → r ≤ m → 1 ≤ i → i ≤ k → M.At A H r i = .ok (f r i, A))
    (hf01 : ∀ r i, 1 ≤ r → r ≤ m → 1 ≤ i → i ≤ k → f r i = 0 ∨ f r i = 1)
    (r c : Nat) (hr1 : 1 ≤ r) (hr2 : r ≤ m) (hc1 : 1 ≤ c) (hc2 : c ≤ k) :
    (range1 k).foldlM (fmfInner H r c) (0, A, M.i ⟨k, k⟩)
      = .ok ((f r c).toNat, A, M.i ⟨k, k⟩) := by
  have h1 : (range1 k).foldlM (fmfInner H r c) (0, A, M.i ⟨k, k⟩)
      = .ok ((range1 k).foldl
          (fun (st : Nat × M × M) i =>
            (st.1 ^^^ ((f r i).toNat &&& (if i = c then 1 else 0)), st.2))
          (0, A, M.i ⟨k, k⟩)) := by
    apply foldlM_except_pure_inv (range1 k)
      (fun st : Nat × M × M => st.2 = (A, M.i ⟨k, k⟩))
    · rfl
    · intro s i hQ hi
      obtain ⟨d, s2⟩ := s
      obtain rfl : s2 = (A, M.i ⟨k, k⟩) := hQ
      obtain ⟨hi1, hi2⟩ := (mem_range1 k i).mp hi
      exact fmfInner_ok A H m k f hAt hf01 r c i hr1 hr2 hc1 hc2 hi1 hi2 d
    · intro s i hQ
      exact hQ
  rw [h1]
  have hfst : ∀ (l : List Nat) (st : Nat × M × M),
      l.foldl (fun (st : Nat × M × M) i =>
          (st.1 ^^^ ((f r i).toNat &&& (if i = c then 1 else 0)), st.2)) st
        = (l.foldl (fun d i =>
            d ^^^ ((f r i).toNat &&& (if i = c then 1 else 0))) st.1, st.2) := by
    intro l
    induction l with
    | nil => intro st; rfl
    | cons a t ih =>
      intro st
      rw [List.foldl_cons, List.foldl_cons, ih]
  rw [hfst]
  rw [foldl_xor_delta (range1 k) (range1_nodup k) c
    ((mem_range1 k c).mpr ⟨hc1, hc2⟩) (fun i => (f r i).toNat)
    (by
      show (f r c).toNat = 0 ∨ (f r c).toNat = 1
      rcases hf01 r c hr1 hr2 hc1 hc2 with h | h <;> rw [h] <;> simp) 0]
  rw [Nat.zero_xor]

/-- One cell step against the identity: set the output bit to the source
element's bit. -/
theorem fmfCell_ok
    (hAt : ∀ r i, 1 ≤ r → r ≤ m → 1 ≤ i → i ≤ k → M.At A H r i = .ok (f r i, A))
    (hf01 : ∀ r i, 1 ≤ r → r ≤ m → 1 ≤ i → i ≤ k → f r i = 0 ∨ f r i = 1)
    (hm1 : 1 ≤ m) (hk1 : 1 ≤ k)
    (c r : Nat) (hr1 : 1 ≤ r) (hr2 : r ≤ m) (hc1 : 1 ≤ c) (hc2 : c ≤ k)
    (v : Nat) :
    fmfCell H k c (⟨m, k, v⟩, A, M.i ⟨k, k⟩) r
      = .ok (⟨m, k, natSetBit v ((c - 1) * m + (r - 1)) (f r c).toNat⟩,
          A, M.i ⟨k, k⟩) := by
  rw [fmfCell]
  rw [fmfInner_fold A H m k f hAt hf01 r c hr1 hr2 hc1 hc2, ok_bind]
  have hd01 : (f r c).toNat = 0 ∨ (f r c).toNat = 1 := by
    rcases hf01 r c hr1 hr2 hc1 hc2 with h | h <;> rw [h] <;> simp
  have hset : FM.SetAt ⟨m, k, v⟩ r c (to01 (decide ((f r c).toNat ≠ 0)))
      = .ok ⟨m, k, natSetBit v ((c - 1) * m + (r - 1)) (f r c).toNat⟩ := by
    have hix : FM.index ⟨m, k, v⟩ r c = .ok ((c - 1) * m + (r - 1)) := by
      rw [FM.index]
      dsimp only
      rw [if_neg (by omega), if_neg (by omega)]
    have h0 : FM.SetAt ⟨m, k, v⟩ r c (to01 (decide ((f r c).toNat ≠ 0)))
        = (FM.index ⟨m, k, v⟩ r c) >>= (fun kk =>
            (check01 (to01 (decide ((f r c).toNat ≠ 0)))) >>= (fun b =>
              pure ⟨m, k, natSetBit v kk b⟩)) := rfl
    rw [h0, hix, ok_bind, check01_to01_decide, ok_bind]
    have : (if (f r c).toNat ≠ 0 then 1 else 0) = (f r c).toNat := by
      rcases hd01 with h | h <;> rw [h] <;> simp
    rw [this]
    rfl
  rw [hset, ok_bind]
  rfl

/-- The row loop against the identity writes the source bits of one output
column and leaves every other bit alone. -/
theorem fmf_row_fold
    (hAt : ∀ r i, 1 ≤ r → r ≤ m → 1 ≤ i → i ≤ k → M.At A H r i = .ok (f r i, A))
    (hf01 : ∀ r i, 1 ≤ r → r ≤ m → 1 ≤ i → i ≤ k → f r i = 0 ∨ f r i = 1)
    (hm1 : 1 ≤ m) (hk1 : 1 ≤ k)
    (c : Nat) (hc1 : 1 ≤ c) (hc2 : c ≤ k) :
    ∀ (rs : List Nat), rs.Nodup → (∀ r ∈ rs, 1 ≤ r ∧ r ≤ m) → ∀ v : Nat,
    ∃ V, rs.foldlM (fmfCell H k c) (⟨m, k, v⟩, A, M.i ⟨k, k⟩)
        = .ok (⟨m, k, V⟩, A, M.i ⟨k, k⟩) ∧
      (∀ j, (∀ r ∈ rs, j ≠ (c - 1) * m + (r - 1)) →
        V.testBit j = v.testBit j) ∧
      (∀ r ∈ rs, V.testBit ((c - 1) * m + (r - 1))
        = decide ((f r c).toNat = 1)) := by
  intro rs
  induction rs with
  | nil =>
    intro _ _ v
    exact ⟨v, rfl, fun j _ => rfl, fun r hr => absurd hr (List.not_mem_nil r)⟩
  | cons r0 t ih =>
    intro hnd hb v
    rw [List.nodup_cons] at hnd
    obtain ⟨hr01, hr02⟩ := hb r0 (List.mem_cons_self r0 t)
    have hd01 : (f r0 c).toNat = 0 ∨ (f r0 c).toNat = 1 := by
      rcases hf01 r0 c hr01 hr02 hc1 hc2 with h | h <;> rw [h] <;> simp
    obtain ⟨V, hV, hunt, hset⟩ := ih hnd.2
      (fun r hr => hb r (List.mem_cons_of_mem r0 hr))
      (natSetBit v ((c - 1) * m + (r0 - 1)) (f r0 c).toNat)
    refine ⟨V, ?_, ?_, ?_⟩
    · rw [List.foldlM_cons,
        fmfCell_ok A H m k f hAt hf01 hm1 hk1 c r0 hr01 hr02 hc1 hc2 v,
        ok_bind]
      exact hV
    · intro j hj
      rw [hunt j (fun r hr => hj r (List.mem_cons_of_mem r0 hr))]
      rw [natSetBit_testBit v _ _ j hd01,
        if_neg (hj r0 (List.mem_cons_self r0 t))]
    · intro r hr
      rcases List.mem_cons.mp hr with rfl | hr
      · have hne : ∀ r' ∈ t, (c - 1) * m + (r - 1) ≠ (c - 1) * m + (r' - 1) := by
          intro r' hr' he
          obtain ⟨h1', _⟩ := hb r' (List.mem_cons_of_mem r hr')
          have : r = r' := by omega
          exact hnd.1 (this ▸ hr')
        rw [hunt _ hne, natSetBit_testBit v _ _ _ hd01, if_pos rfl]
      · exact hset r hr

/-- The column loop against the identity materialises the source bits. -/
theorem fmf_col_fold
    (hAt : ∀ r i, 1 ≤ r → r ≤ m → 1 ≤ i → i ≤ k → M.At A H r i = .ok (f r i, A))
    (hf01 : ∀ r i, 1 ≤ r → r ≤ m → 1 ≤ i → i ≤ k → f r i = 0 ∨ f r i = 1)
    (hm1 : 1 ≤ m) (hk1 : 1 ≤ k) :
    ∀ (cs : List Nat), cs.Nodup → (∀ c ∈ cs, 1 ≤ c ∧ c ≤ k) → ∀ v : Nat,
    ∃ V, cs.foldlM (fmfCol H m k) (⟨m, k, v⟩, A, M.i ⟨k, k⟩)
        = .ok (⟨m, k, V⟩, A, M.i ⟨k, k⟩) ∧
      (∀ j, (∀ c ∈ cs, ¬((c - 1) * m ≤ j ∧ j < c * m)) →
        V.testBit j = v.testBit j) ∧
      (∀ c ∈ cs, ∀ r, 1 ≤ r → r ≤ m → V.testBit ((c - 1) * m + (r - 1))
        = decide ((f r c).toNat = 1)) := by
  intro cs
  induction cs with
  | nil =>
    intro _ _ v
    exact ⟨v, rfl, fun j _ => rfl, fun c hc => absurd hc (List.not_mem_nil c)⟩
  | cons c0 t ih =>
    intro hnd hb v
    rw [List.nodup_cons] at hnd
    obtain ⟨hc01, hc02⟩ := hb c0 (List.mem_cons_self c0 t)
    obtain ⟨V1, hV1, hunt1, hset1⟩ := fmf_row_fold A H m k f hAt hf01 hm1 hk1
      c0 hc01 hc02 (range1 m) (range1_nodup m)
      (fun r hr => (mem_range1 m r).mp hr) v
    obtain ⟨V, hV, hunt, hset⟩ := ih hnd.2
      (fun c hc => hb c (List.mem_cons_of_mem c0 hc)) V1
    have hblock : ∀ r, 1 ≤ r → r ≤ m →
        (c0 - 1) * m ≤ (c0 - 1) * m + (r - 1) ∧ (c0 - 1) * m + (r - 1) < c0 * m := by
      intro r h1 h2
      constructor
      · omega
      · calc (c0 - 1) * m + (r - 1) < (c0 - 1) * m + m := by omega
          _ = (c0 - 1 + 1) * m := by ring
          _ = c0 * m := by rw [show c0 - 1 + 1 = c0 from by omega]
    refine ⟨V, ?_, ?_, ?_⟩
    · rw [List.foldlM_cons]
      have hcol : fmfCol H m k (⟨m, k, v⟩, A, M.i ⟨k, k⟩) c0
          = .ok (⟨m, k, V1⟩, A, M.i ⟨k, k⟩) := hV1
      rw [hcol, ok_bind]
      exact hV
    · intro j hj
      rw [hunt j (fun c hc => hj c (List.mem_cons_of_mem c0 hc))]
      refine hunt1 j ?_
      intro r hr he
      obtain ⟨h1, h2⟩ := (mem_range1 m r).mp hr
      exact hj c0 (List.mem_cons_self c0 t) (he ▸ hblock r h1 h2)
    · intro c hc r h1 h2
      rcases List.mem_cons.mp hc with rfl | hc
      · have hout : ∀ c' ∈ t, ¬((c' - 1) * m ≤ (c - 1) * m + (r - 1) ∧
            (c - 1) * m + (r - 1) < c' * m) := by
          intro c' hc' ⟨hlo, hhi⟩
          obtain ⟨hc1', hc2'⟩ := hb c' (List.mem_cons_of_mem c hc')
          obtain ⟨hlo0, hhi0⟩ := hblock r h1 h2
          have hd1 : ((c - 1) * m + (r - 1)) / m = c - 1 :=
            Nat.div_eq_of_lt_le hlo0 (by
              rw [show (c - 1 + 1) = c from by omega]
              exact hhi0)
          have hd2 : ((c - 1) * m + (r - 1)) / m = c' - 1 :=
            Nat.div_eq_of_lt_le hlo (by
              rw [show (c' - 1 + 1) = c' from by omega]
              exact hhi)
          have : c = c' := by omega
          exact hnd.1 (this ▸ hc')
        rw [hunt _ hout]
        exact hset1 r ((mem_range1 m r).mpr ⟨h1, h2⟩)
      · exact hset c hc r h1 h2

/-- `fMulFull` against the identity materialises the left operand into a
full binary matrix, bit for bit. -/
theorem fMulFull_i_ok
    (hsz : A.size = (m, k)) (hm1 : 1 ≤ m) (hm2 : m ≤ 65535)
    (hk1 : 1 ≤ k) (hk2 : k ≤ 65535)
    (hAt : ∀ r i, 1 ≤ r → r ≤ m → 1 ≤ i → i ≤ k → M.At A H r i = .ok (f r i, A))
    (hf01 : ∀ r i, 1 ≤ r → r ≤ m → 1 ≤ i → i ≤ k → f r i = 0 ∨ f r i = 1) :
    ∃ V, fMulFull A (M.i ⟨k, k⟩) H = .ok ⟨m, k, V⟩ ∧
      ∀ r c, 1 ≤ r → r ≤ m → 1 ≤ c → c ≤ k →
        V.testBit ((c - 1) * m + (r - 1)) = decide ((f r c).toNat = 1) := by
  obtain ⟨V, hV, _, hset⟩ := fmf_col_fold A H m k f hAt hf01 hm1 hk1
    (range1 k) (range1_nodup k) (fun c hc => (mem_range1 k c).mp hc)
    (natSetBit 0 (m * k) 1)
  refine ⟨V, ?_, fun r c h1 h2 h3 h4 =>
    hset c ((mem_range1 k c).mpr ⟨h3, h4⟩) r h1 h2⟩
  rw [fMulFull, hsz]
  dsimp only [M.size]
  rw [newFull_ok m k hm1 hm2 hk1 hk2, ok_bind, hV, ok_bind]
  rfl

end FMulFullIdentity

/-- Every kind's `elemVal` except the polynomial ones is 0 or 1 outright. -/
theorem elemVal_r_01 (x : R) (H : Heap) (r c : Nat) :
    elemVal (M.r x) H r c = 0 ∨ elemVal (M.r x) H r c = 1 := by
  rw [elemVal]
  split <;> split <;> first | exact Or.inr rfl | exact Or.inl rfl

/-- `elemVal` of the shift matrix is 0 or 1. -/
theorem elemVal_s_01 (x : S) (H : Heap) (r c : Nat) :
    elemVal (M.s x) H r c = 0 ∨ elemVal (M.s x) H r c = 1 := by
  rw [elemVal]
  split
  · exact Or.inr rfl
  · exact Or.inl rfl

/-- C7, amended: for a well-formed matrix of any kind whose elements are all
0 or 1 (and whose dimensions fit the 65535 storage limit, since several
dispatch paths materialise the result), multiplying by `Eye(k,k)` succeeds
and yields a matrix whose every in-bounds element value equals the
original's.  (Element values are read per each kind's storage semantics —
for `PSM` the stored polynomial, since `PSM.At` itself is broken, see C1.) -/
theorem c7_fmul_identity_amended (A : M) (H : Heap) (m k : Nat)
    (hWF : A.WF) (hsz : A.size = (m, k)) (hm2 : m ≤ 65535) (hk2 : k ≤ 65535)
    (hbin : binaryElems A H) :
    ∃ C, FMul A (M.i ⟨k, k⟩) H = .ok C ∧
      ∀ r c, 1 ≤ r → r ≤ m → 1 ≤ c → c ≤ k →
        elemVal C H r c = elemVal A H r c := by
  have hm1 : 1 ≤ m := by
    have := wf_size_pos A hWF
    rw [hsz] at this
    exact this.1
  have hk1 : 1 ≤ k := by
    have := wf_size_pos A hWF
    rw [hsz] at this
    exact this.2
  cases A with
  | z za =>
    obtain ⟨zr, zc⟩ := za
    simp only [M.size, Prod.mk.injEq] at hsz
    obtain ⟨h1, h2⟩ := hsz
    rcases h1.symm with rfl
    rcases h2.symm with rfl
    refine ⟨M.z ⟨m, k⟩, ?_, fun _ _ _ _ _ _ => rfl⟩
    rw [FMul]
    try dsimp only [M.size]
    rw [if_neg (show ¬ k ≠ k from fun h => h rfl), zeros_ok m k hm1 hk1]
    rfl
  | i xa =>
    obtain ⟨xr, xc⟩ := xa
    simp only [M.size, Prod.mk.injEq] at hsz
    obtain ⟨h1, h2⟩ := hsz
    rcases h1.symm with rfl
    rcases h2.symm with rfl
    refine ⟨M.i ⟨m, k⟩, ?_, fun _ _ _ _ _ _ => rfl⟩
    rw [FMul]
    try dsimp only [M.size]
    rw [if_neg (show ¬ k ≠ k from fun h => h rfl), eye_ok m k hm1 hk1]
    rfl
  | fm xa =>
    obtain ⟨xr, xc, xv⟩ := xa
    simp only [M.size, Prod.mk.injEq] at hsz
    obtain ⟨h1, h2⟩ := hsz
    rcases h1.symm with rfl
    rcases h2.symm with rfl
    refine ⟨M.fm ⟨m, k, xv⟩, ?_, fun _ _ _ _ _ _ => rfl⟩
    rw [FMul]
    try dsimp only [M.size]
    rw [if_neg (show ¬ k ≠ k from fun h => h rfl)]
    have h0 : fMul2 (M.fm ⟨m, k, xv⟩) (M.i ⟨k, k⟩) H m k
        = (Full (M.fm ⟨m, k, xv⟩) H).map M.fm := rfl
    rw [h0]
    have hfull : Full (M.fm ⟨m, k, xv⟩) H = .ok ⟨m, k, xv⟩ := by
      rw [Full]
      dsimp only [M.size]
      rw [if_neg (by omega)]
    rw [hfull]
    rfl
  | sm xa =>
    obtain ⟨xr, xc, xv⟩ := xa
    simp only [M.size, Prod.mk.injEq] at hsz
    obtain ⟨h1, h2⟩ := hsz
    rcases h1.symm with rfl
    rcases h2.symm with rfl
    obtain ⟨-, -, -, -, hnd, hkir⟩ := hWF
    refine ⟨M.sm ⟨m, k, xv.foldl (fun acc ja =>
      if ja.2 ≠ 0 ∧ ja.1 / 65536 < k ∧ ja.1 % 65536 < m then mset acc ja.1 1
      else acc) []⟩, ?_, ?_⟩
    · rw [FMul]
      dsimp only [M.size]
      rw [if_neg (show ¬ k ≠ k from fun h => h rfl)]
      have h0 : fMulSX ⟨m, k, xv⟩ (M.i ⟨k, k⟩) H
          = (NewSparse m k).bind (fun C0 : SM => .ok ⟨m, k, xv.foldl
              (fun acc ja =>
                if ja.2 ≠ 0 ∧ ja.1 / 65536 < k ∧ ja.1 % 65536 < m then
                  mset acc ja.1 1
                else acc) C0.v⟩) := rfl
      rw [h0, newSparse_ok m k hm1 hm2 hk1 hk2]
      rfl
    · intro r c hr1 hr2 hc1 hc2
      have hv : mget (xv.foldl (fun acc ja =>
          if ja.2 ≠ 0 ∧ ja.1 / 65536 < k ∧ ja.1 % 65536 < m then mset acc ja.1 1
          else acc) []) ((c - 1) * 65536 + (r - 1))
          = (match mfind xv ((c - 1) * 65536 + (r - 1)) with
            | some a => if a ≠ 0 ∧ ((c - 1) * 65536 + (r - 1)) / 65536 < k ∧
                ((c - 1) * 65536 + (r - 1)) % 65536 < m then 1 else 0
            | none => 0) :=
        fold_mark_mget xv _ [] hnd _
      show (if mget (xv.foldl _ []) ((c - 1) * 65536 + (r - 1)) ≠ 0
          then (1 : Int) else 0)
        = if mget xv ((c - 1) * 65536 + (r - 1)) ≠ 0 then 1 else 0
      rw [hv, mget]
      cases hf : mfind xv ((c - 1) * 65536 + (r - 1)) with
      | none => rfl
      | some a =>
        dsimp only [Option.getD]
        by_cases ha : a ≠ 0
        · rw [if_pos (show a ≠ 0 ∧ ((c - 1) * 65536 + (r - 1)) / 65536 < k ∧
              ((c - 1) * 65536 + (r - 1)) % 65536 < m from
                ⟨ha, by omega, by omega⟩)]
          rw [if_pos (show (1 : Nat) ≠ 0 from by omega), if_pos ha]
        · rw [if_neg (show ¬(a ≠ 0 ∧ ((c - 1) * 65536 + (r - 1)) / 65536 < k ∧
              ((c - 1) * 65536 + (r - 1)) % 65536 < m) from fun hcc => ha hcc.1)]
          rw [if_neg (show ¬(0 : Nat) ≠ 0 from by omega), if_neg ha]
  | psm xa =>
    obtain ⟨xr, xc, xv⟩ := xa
    simp only [M.size, Prod.mk.injEq] at hsz
    obtain ⟨h1, h2⟩ := hsz
    rcases h1.symm with rfl
    rcases h2.symm with rfl
    obtain ⟨-, -, -, -, hnd, hkir⟩ := hWF
    have hentry : ∀ ja ∈ xv, H.get ja.2 = 0 ∨ H.get ja.2 = 1 := by
      intro ja hja
      obtain ⟨hrow, hcol⟩ := hkir ja hja
      have hrow' : ja.1 % 65536 < m := hrow
      have hcol' : ja.1 / 65536 < k := hcol
      have hfind : mfind xv ja.1 = some ja.2 :=
        mfind_of_mem_nodup xv ja.1 ja.2 hja hnd
      have := hbin (ja.1 % 65536 + 1) (ja.1 / 65536 + 1)
        (by omega) (by dsimp only [M.size]; omega)
        (by omega) (by dsimp only [M.size]; omega)
      rw [elemVal] at this
      dsimp only at this
      rw [show (ja.1 / 65536 + 1 - 1) * 65536 + (ja.1 % 65536 + 1 - 1) = ja.1
        from by omega, hfind] at this
      exact this
    have hbody : ∀ (acc : List (Nat × Nat)) (ja : Nat × Nat), ja ∈ xv →
        (do
          let a ← check01 (H.get ja.2)
          if a ≠ 0 ∧ ja.1 / 65536 < k ∧ ja.1 % 65536 < m then
            pure (mset acc ja.1 1)
          else pure acc)
          = (.ok (if H.get ja.2 ≠ 0 ∧ ja.1 / 65536 < k ∧ ja.1 % 65536 < m then
              mset acc ja.1 1 else acc) : Except String (List (Nat × Nat))) := by
      intro acc ja hja
      rw [check01_of01 _ (hentry ja hja), ok_bind]
      rcases hentry ja hja with h | h <;> rw [h]
      · rw [if_neg (show ¬((Int.toNat 0 ≠ 0) ∧ ja.1 / 65536 < k ∧
            ja.1 % 65536 < m) from fun hcc => hcc.1 rfl),
          if_neg (show ¬(((0 : Int) ≠ 0) ∧ ja.1 / 65536 < k ∧
            ja.1 % 65536 < m) from fun hcc => hcc.1 rfl)]
        rfl
      · by_cases hcc : ja.1 / 65536 < k ∧ ja.1 % 65536 < m
        · rw [if_pos (show (Int.toNat 1 ≠ 0) ∧ ja.1 / 65536 < k ∧
              ja.1 % 65536 < m from ⟨one_ne_zero, hcc.1, hcc.2⟩),
            if_pos (show ((1 : Int) ≠ 0) ∧ ja.1 / 65536 < k ∧
              ja.1 % 65536 < m from ⟨one_ne_zero, hcc.1, hcc.2⟩)]
          rfl
        · rw [if_neg (show ¬((Int.toNat 1 ≠ 0) ∧ ja.1 / 65536 < k ∧
              ja.1 % 65536 < m) from fun hx => hcc ⟨hx.2.1, hx.2.2⟩),
            if_neg (show ¬(((1 : Int) ≠ 0) ∧ ja.1 / 65536 < k ∧
              ja.1 % 65536 < m) from fun hx => hcc ⟨hx.2.1, hx.2.2⟩)]
          rfl
    refine ⟨M.sm ⟨m, k, xv.foldl (fun acc ja =>
      if H.get ja.2 ≠ 0 ∧ ja.1 / 65536 < k ∧ ja.1 % 65536 < m then
        mset acc ja.1 1
      else acc) []⟩, ?_, ?_⟩
    · rw [FMul]
      dsimp only [M.size]
      rw [if_neg (show ¬ k ≠ k from fun h => h rfl)]
      have h0 : fMulPSX ⟨m, k, xv⟩ (M.i ⟨k, k⟩) H
          = (NewSparse m k) >>= (fun C0 : SM =>
              (xv.foldlM (fun (acc : List (Nat × Nat)) (ja : Nat × Nat) => do
                let a ← check01 (H.get ja.2)
                if a ≠ 0 ∧ ja.1 / 65536 < k ∧ ja.1 % 65536 < m then
                  pure (mset acc ja.1 1)
                else pure acc) C0.v) >>=
                (fun v => pure ⟨m, k, v⟩)) := rfl
      rw [h0, newSparse_ok m k hm1 hm2 hk1 hk2, ok_bind]
      dsimp only
      have hfold := foldlM_except_pure xv
        (fun acc ja =>
          if H.get ja.2 ≠ 0 ∧ ja.1 / 65536 < k ∧ ja.1 % 65536 < m then
            mset acc ja.1 1
          else acc)
        _ (fun acc ja hja => hbody acc ja hja) []
      rw [hfold, ok_bind]
      rfl
    · intro r c hr1 hr2 hc1 hc2
      have hv : mget (xv.foldl (fun acc ja =>
          if H.get ja.2 ≠ 0 ∧ ja.1 / 65536 < k ∧ ja.1 % 65536 < m then
            mset acc ja.1 1
          else acc) []) ((c - 1) * 65536 + (r - 1))
          = (match mfind xv ((c - 1) * 65536 + (r - 1)) with
            | some a => if H.get a ≠ 0 ∧ ((c - 1) * 65536 + (r - 1)) / 65536 < k ∧
                ((c - 1) * 65536 + (r - 1)) % 65536 < m then 1 else 0
            | none => 0) :=
        fold_mark_mget xv _ [] hnd _
      have hval := hbin r c hr1 (by dsimp only [M.size]; omega)
        hc1 (by dsimp only [M.size]; omega)
      rw [elemVal] at hval
      dsimp only at hval
      show (if mget (xv.foldl _ []) ((c - 1) * 65536 + (r - 1)) ≠ 0
          then (1 : Int) else 0)
        = (match mfind xv ((c - 1) * 65536 + (r - 1)) with
          | some a => H.get a
          | none => 0)
      rw [hv]
      cases hf : mfind xv ((c - 1) * 65536 + (r - 1)) with
      | none => rfl
      | some a =>
        rw [hf] at hval
        dsimp only at hval
        dsimp only
        by_cases ha : H.get a ≠ 0
        · rw [if_pos (show H.get a ≠ 0 ∧
              ((c - 1) * 65536 + (r - 1)) / 65536 < k ∧
              ((c - 1) * 65536 + (r - 1)) % 65536 < m from
                ⟨ha, by omega, by omega⟩)]
          rcases hval with h | h
          · exact absurd h ha
          · rw [h, if_pos (show (1 : Nat) ≠ 0 from by omega)]
        · push_neg at ha
          rw [if_neg (show ¬(H.get a ≠ 0 ∧
              ((c - 1) * 65536 + (r - 1)) / 65536 < k ∧
              ((c - 1) * 65536 + (r - 1)) % 65536 < m) from fun hcc => hcc.1 ha)]
          rw [ha, if_neg (show ¬(0 : Nat) ≠ 0 from by omega)]
  | pfm xa =>
    obtain ⟨xr, xc, xv⟩ := xa
    simp only [M.size, Prod.mk.injEq] at hsz
    obtain ⟨h1, h2⟩ := hsz
    rcases h1.symm with rfl
    rcases h2.symm with rfl
    obtain ⟨-, -, -, -, hlen⟩ := hWF
    have hAt : ∀ r i, 1 ≤ r → r ≤ m → 1 ≤ i → i ≤ k →
        M.At (M.pfm ⟨m, k, xv⟩) H r i
          = .ok (elemVal (M.pfm ⟨m, k, xv⟩) H r i, M.pfm ⟨m, k, xv⟩) :=
      fun r i h1' h2' h3' h4' => pfm_at_ok ⟨m, k, xv⟩ H r i hlen h1' h2' h3' h4'
    have hf01 : ∀ r i, 1 ≤ r → r ≤ m → 1 ≤ i → i ≤ k →
        elemVal (M.pfm ⟨m, k, xv⟩) H r i = 0 ∨
          elemVal (M.pfm ⟨m, k, xv⟩) H r i = 1 :=
      fun r i h1' h2' h3' h4' => hbin r i h1' h2' h3' h4'
    obtain ⟨V, hV, hbit⟩ := fMulFull_i_ok (M.pfm ⟨m, k, xv⟩) H m k _
      rfl hm1 hm2 hk1 hk2 hAt hf01
    refine ⟨M.fm ⟨m, k, V⟩, ?_, ?_⟩
    · rw [FMul]
      dsimp only [M.size]
      rw [if_neg (show ¬ k ≠ k from fun h => h rfl)]
      have h0 : fMul2 (M.pfm ⟨m, k, xv⟩) (M.i ⟨k, k⟩) H m k
          = (fMulFull (M.pfm ⟨m, k, xv⟩) (M.i ⟨k, k⟩) H).map M.fm := rfl
      rw [h0, hV]
      rfl
    · intro r c hr1 hr2 hc1 hc2
      show (if V.testBit ((c - 1) * m + (r - 1)) then (1 : Int) else 0) = _
      rw [hbit r c hr1 hr2 hc1 hc2]
      rcases hf01 r c hr1 hr2 hc1 hc2 with h | h <;> rw [h] <;> simp
  | r xa =>
    obtain ⟨xs, xn⟩ := xa
    simp only [M.size, Prod.mk.injEq] at hsz
    obtain ⟨h1, h2⟩ := hsz
    rcases h1.symm with rfl
    rcases h2 with rfl
    have hAt : ∀ r i, 1 ≤ r → r ≤ m → 1 ≤ i → i ≤ m →
        M.At (M.r ⟨m, xn⟩) H r i
          = .ok (elemVal (M.r ⟨m, xn⟩) H r i, M.r ⟨m, xn⟩) :=
      fun r i h1' h2' h3' h4' => r_at_ok ⟨m, xn⟩ H r i h1' h2' h3' h4'
    have hf01 : ∀ r i, 1 ≤ r → r ≤ m → 1 ≤ i → i ≤ m →
        elemVal (M.r ⟨m, xn⟩) H r i = 0 ∨ elemVal (M.r ⟨m, xn⟩) H r i = 1 :=
      fun r i _ _ _ _ => elemVal_r_01 ⟨m, xn⟩ H r i
    obtain ⟨V, hV, hbit⟩ := fMulFull_i_ok (M.r ⟨m, xn⟩) H m m _
      rfl hm1 hm2 hm1 hm2 hAt hf01
    refine ⟨M.fm ⟨m, m, V⟩, ?_, ?_⟩
    · rw [FMul]
      dsimp only [M.size]
      rw [if_neg (show ¬ m ≠ m from fun h => h rfl)]
      have h0 : fMul2 (M.r ⟨m, xn⟩) (M.i ⟨m, m⟩) H m m
          = (fMulFull (M.r ⟨m, xn⟩) (M.i ⟨m, m⟩) H).map M.fm := rfl
      rw [h0, hV]
      rfl
    · intro r c hr1 hr2 hc1 hc2
      show (if V.testBit ((c - 1) * m + (r - 1)) then (1 : Int) else 0) = _
      rw [hbit r c hr1 hr2 hc1 hc2]
      rcases hf01 r c hr1 hr2 hc1 hc2 with h | h <;> rw [h] <;> simp
  | s xa =>
    obtain ⟨xs, xn⟩ := xa
    simp only [M.size, Prod.mk.injEq] at hsz
    obtain ⟨h1, h2⟩ := hsz
    rcases h1.symm with rfl
    rcases h2 with rfl
    have hAt : ∀ r i, 1 ≤ r → r ≤ m → 1 ≤ i → i ≤ m →
        M.At (M.s ⟨m, xn⟩) H r i
          = .ok (elemVal (M.s ⟨m, xn⟩) H r i, M.s ⟨m, xn⟩) :=
      fun r i h1' h2' h3' h4' => s_at_ok ⟨m, xn⟩ H r i h1' h2' h3' h4'
    have hf01 : ∀ r i, 1 ≤ r → r ≤ m → 1 ≤ i → i ≤ m →
        elemVal (M.s ⟨m, xn⟩) H r i = 0 ∨ elemVal (M.s ⟨m, xn⟩) H r i = 1 :=
      fun r i _ _ _ _ => elemVal_s_01 ⟨m, xn⟩ H r i
    obtain ⟨V, hV, hbit⟩ := fMulFull_i_ok (M.s ⟨m, xn⟩) H m m _
      rfl hm1 hm2 hm1 hm2 hAt hf01
    refine ⟨M.fm ⟨m, m, V⟩, ?_, ?_⟩
    · rw [FMul]
      dsimp only [M.size]
      rw [if_neg (show ¬ m ≠ m from fun h => h rfl)]
      have h0 : fMul2 (M.s ⟨m, xn⟩) (M.i ⟨m, m⟩) H m m
          = (fMulFull (M.s ⟨m, xn⟩) (M.i ⟨m, m⟩) H).map M.fm := rfl
      rw [h0, hV]
      rfl
    · intro r c hr1 hr2 hc1 hc2
      show (if V.testBit ((c - 1) * m + (r - 1)) then (1 : Int) else 0) = _
      rw [hbit r c hr1 hr2 hc1 hc2]
      rcases hf01 r c hr1 hr2 hc1 hc2 with h | h <;> rw [h] <;> simp

/-- C7, witness: the 1×2 sparse matrix with a single 1 at (1,1), multiplied
by `Eye(2,2)`. -/
theorem c7_fmul_identity_amended_witness :
    (M.sm ⟨1, 2, [(0, 1)]⟩).WF ∧ (M.sm ⟨1, 2, [(0, 1)]⟩).size = (1, 2) ∧
    binaryElems (M.sm ⟨1, 2, [(0, 1)]⟩) [] ∧
    (∃ C, FMul (M.sm ⟨1, 2, [(0, 1)]⟩) (M.i ⟨2, 2⟩) [] = .ok C ∧
      ∀ r c, 1 ≤ r → r ≤ 1 → 1 ≤ c → c ≤ 2 →
        elemVal C [] r c = elemVal (M.sm ⟨1, 2, [(0, 1)]⟩) [] r c) := by
  have hwf : (M.sm ⟨1, 2, [(0, 1)]⟩).WF := by
    refine ⟨by norm_num, by norm_num, by norm_num, by norm_num, ?_, ?_⟩
    · simp [mkeys]
    · intro kv hkv
      rw [List.mem_singleton.mp hkv]
      exact ⟨by norm_num, by norm_num⟩
  have hbin : binaryElems (M.sm ⟨1, 2, [(0, 1)]⟩) [] := by
    intro r c _ _ _ _
    by_cases h : mget [(0, 1)] ((c - 1) * 65536 + (r - 1)) ≠ 0 <;>
      simp [elemVal, h]
  exact ⟨hwf, rfl, hbin,
    c7_fmul_identity_amended (M.sm ⟨1, 2, [(0, 1)]⟩) [] 1 2 hwf rfl
      (by norm_num) (by norm_num) hbin⟩

end Gof2
